import Mathlib

/-!
Verification of the natural-gas price-forecasting repository
(`forecasting.py` / `storage_contract.py`).

The development shallowly embeds the two source files:

* calendar dates (pandas timestamps restricted to the documented
  `YYYY-MM-DD` input form) with their chronological order,
* the seasonal price estimator (`build_price_model` / `estimate_price`),
* the storage-contract valuator (`price_storage_contract`).

Numeric semantics are modelled with exact rationals `ℚ` (the Python code
computes with IEEE floats).  The four harmonic basis functions
`sin/cos (2π·d/365.25)`, `sin/cos (4π·d/365.25)` are transcendental, so they
are abstracted as a `SeasonalBasis` parameter: every theorem below holds for
an arbitrary basis, in particular for the one of the source.  Likewise the
ordinary-least-squares routine of the external `sklearn` library is an
abstract parameter `ols`, and the fitted price-lookup function used inside
the contract valuator is an abstract parameter `gp : Date → ℚ`.
-/

/-- A calendar date, as carried by a parsed pandas timestamp (year, month,
day).  Months and days are 1-based, as in the source data. -/
structure Date where
  y : ℕ
  m : ℕ
  d : ℕ
deriving DecidableEq, Repr

/-- Chronological (strict) order on dates: lexicographic on
(year, month, day).  This is the comparison pandas timestamps use for
`sort`, `min`, `max` and `<` in `price_storage_contract`. -/
def dateLt (a b : Date) : Prop :=
  a.y < b.y ∨ (a.y = b.y ∧ (a.m < b.m ∨ (a.m = b.m ∧ a.d < b.d)))

/-- Chronological non-strict order on dates. -/
def dateLe (a b : Date) : Prop :=
  a.y < b.y ∨ (a.y = b.y ∧ (a.m < b.m ∨ (a.m = b.m ∧ a.d ≤ b.d)))

instance (a b : Date) : Decidable (dateLt a b) := by
  unfold dateLt; exact inferInstance

instance (a b : Date) : Decidable (dateLe a b) := by
  unfold dateLe; exact inferInstance

theorem dateLe_refl (a : Date) : dateLe a a := by
  simp [dateLe]

theorem dateLe_trans {a b c : Date} (h1 : dateLe a b) (h2 : dateLe b c) :
    dateLe a c := by
  unfold dateLe at *; omega

theorem dateLe_total (a b : Date) : dateLe a b ∨ dateLe b a := by
  unfold dateLe; omega

theorem dateLe_antisymm {a b : Date} (h1 : dateLe a b) (h2 : dateLe b a) :
    a = b := by
  cases a; cases b
  unfold dateLe at *
  simp_all only [Date.mk.injEq]
  omega

theorem not_dateLt_iff {a b : Date} : ¬ dateLt a b ↔ dateLe b a := by
  unfold dateLt dateLe; omega

theorem not_dateLe_iff {a b : Date} : ¬ dateLe a b ↔ dateLt b a := by
  unfold dateLt dateLe; omega

/-- Gregorian leap-year test (as implemented by pandas calendars). -/
def isLeap (y : ℕ) : Bool :=
  y % 4 = 0 && (y % 100 ≠ 0 || y % 400 = 0)

/-- Number of days of month `m` (1-based) in a (non-)leap year. -/
def monthLength (leap : Bool) (m : ℕ) : ℕ :=
  match m with
  | 1 => 31
  | 2 => if leap then 29 else 28
  | 3 => 31
  | 4 => 30
  | 5 => 31
  | 6 => 30
  | 7 => 31
  | 8 => 31
  | 9 => 30
  | 10 => 31
  | 11 => 30
  | 12 => 31
  | _ => 0

/-- Days elapsed in the year before month `m` starts. -/
def daysBefore (leap : Bool) : ℕ → ℕ
  | 0 => 0
  | 1 => 0
  | n + 1 => daysBefore leap n + monthLength leap n

/-- `pandas.Timestamp.dayofyear`: 1-based ordinal day of the year. -/
def dayOfYear (dt : Date) : ℕ :=
  daysBefore (isLeap dt.y) dt.m + dt.d

/-- Digit-string to number; `none` on an empty string or a non-digit. -/
def digitsVal (cs : List Char) : Option ℕ :=
  match cs with
  | [] => none
  | _ =>
    cs.foldl
      (fun acc c =>
        acc.bind fun n => if c.isDigit then some (n * 10 + (c.toNat - 48)) else none)
      (some 0)

/-- Split a character list at every `'-'`. -/
def splitDash : List Char → List (List Char)
  | [] => [[]]
  | c :: rest =>
    if c = '-' then [] :: splitDash rest
    else
      match splitDash rest with
      | g :: gs => (c :: g) :: gs
      | [] => [[c]]

/-- `pandas.to_datetime` restricted to the documented `YYYY-MM-DD` input
form: four digit year, two digit month and day, calendar-valid values.
Returns `none` exactly when the source call raises (→ `InvalidDateError`). -/
def parseDate (s : String) : Option Date :=
  match splitDash s.toList with
  | [ys, ms, ds] =>
    match digitsVal ys, digitsVal ms, digitsVal ds with
    | some y, some m, some d =>
      if ys.length = 4 ∧ ms.length = 2 ∧ ds.length = 2 ∧
          1 ≤ m ∧ m ≤ 12 ∧ 1 ≤ d ∧ d ≤ monthLength (isLeap y) m then
        some ⟨y, m, d⟩
      else none
    | _, _, _ => none
  | _ => none

/-- Parse a whole list of date strings; `none` as soon as one fails, as the
single `try`/`except` around both comprehensions of the source does. -/
def parseAll : List String → Option (List Date)
  | [] => some []
  | s :: rest =>
    match parseDate s, parseAll rest with
    | some dt, some dts => some (dt :: dts)
    | _, _ => none

theorem parseDate_month_range {s : String} {dt : Date}
    (h : parseDate s = some dt) : 1 ≤ dt.m ∧ dt.m ≤ 12 := by
  unfold parseDate at h
  split at h
  · split at h
    · split at h
      · rename_i hcond
        cases h
        exact ⟨hcond.2.2.2.1, hcond.2.2.2.2.1⟩
      · exact absurd h (by simp)
    · exact absurd h (by simp)
  · exact absurd h (by simp)

theorem parseAll_length {l : List String} {ds : List Date}
    (h : parseAll l = some ds) : ds.length = l.length := by
  induction l generalizing ds with
  | nil => cases h; rfl
  | cons s rest ih =>
    unfold parseAll at h
    cases hp : parseDate s with
    | none => rw [hp] at h; exact absurd h (by simp)
    | some dt =>
      rw [hp] at h
      cases hr : parseAll rest with
      | none => rw [hr] at h; exact absurd h (by simp)
      | some dts =>
        rw [hr] at h
        cases h
        simp [ih hr]

theorem parseAll_mem {l : List String} {ds : List Date}
    (h : parseAll l = some ds) : ∀ dt ∈ ds, ∃ s ∈ l, parseDate s = some dt := by
  induction l generalizing ds with
  | nil => cases h; intro dt hdt; exact absurd hdt (by simp)
  | cons s rest ih =>
    unfold parseAll at h
    cases hp : parseDate s with
    | none => rw [hp] at h; exact absurd h (by simp)
    | some dt0 =>
      rw [hp] at h
      cases hr : parseAll rest with
      | none => rw [hr] at h; exact absurd h (by simp)
      | some dts =>
        rw [hr] at h
        cases h
        intro dt hdt
        rcases List.mem_cons.mp hdt with h1 | h1
        · exact ⟨s, by simp, h1 ▸ hp⟩
        · obtain ⟨s', hs', hps'⟩ := ih hr dt h1
          exact ⟨s', by simp [hs'], hps'⟩

theorem parseAll_append {l1 l2 : List String} {ds : List Date}
    (h : parseAll (l1 ++ l2) = some ds) :
    ∃ ds1 ds2, parseAll l1 = some ds1 ∧ parseAll l2 = some ds2 ∧
      ds = ds1 ++ ds2 := by
  induction l1 generalizing ds with
  | nil => exact ⟨[], ds, rfl, h, rfl⟩
  | cons s rest ih =>
    rw [List.cons_append] at h
    unfold parseAll at h
    cases hp : parseDate s with
    | none => rw [hp] at h; exact absurd h (by simp)
    | some dt =>
      rw [hp] at h
      cases hr : parseAll (rest ++ l2) with
      | none => rw [hr] at h; exact absurd h (by simp)
      | some dts =>
        rw [hr] at h
        cases h
        obtain ⟨ds1, ds2, h1, h2, h3⟩ := ih hr
        refine ⟨dt :: ds1, ds2, ?_, h2, by simp [h3]⟩
        unfold parseAll
        rw [hp, h1]

theorem parseAll_append_of {l1 l2 : List String} {ds1 ds2 : List Date}
    (h1 : parseAll l1 = some ds1) (h2 : parseAll l2 = some ds2) :
    parseAll (l1 ++ l2) = some (ds1 ++ ds2) := by
  induction l1 generalizing ds1 with
  | nil => cases h1; exact h2
  | cons s rest ih =>
    unfold parseAll at h1
    cases hp : parseDate s with
    | none => rw [hp] at h1; exact absurd h1 (by simp)
    | some dt =>
      rw [hp] at h1
      cases hr : parseAll rest with
      | none => rw [hr] at h1; exact absurd h1 (by simp)
      | some dts =>
        rw [hr] at h1
        cases h1
        rw [List.cons_append]
        unfold parseAll
        rw [hp, ih hr]
        rfl

theorem parseAll_cons {s : String} {rest : List String} {ds : List Date}
    (h : parseAll (s :: rest) = some ds) :
    ∃ dt dts, parseDate s = some dt ∧ parseAll rest = some dts ∧
      ds = dt :: dts := by
  unfold parseAll at h
  cases hp : parseDate s with
  | none => rw [hp] at h; exact absurd h (by simp)
  | some dt =>
    rw [hp] at h
    cases hr : parseAll rest with
    | none => rw [hr] at h; exact absurd h (by simp)
    | some dts =>
      rw [hr] at h
      cases h
      exact ⟨dt, dts, rfl, rfl, rfl⟩

theorem parseAll_cons_of {s : String} {rest : List String} {dt : Date}
    {dts : List Date} (hp : parseDate s = some dt)
    (hr : parseAll rest = some dts) :
    parseAll (s :: rest) = some (dt :: dts) := by
  unfold parseAll
  rw [hp, hr]

/-- One step of Python's `min` scan over timestamps: replace the current
minimum when a strictly earlier date shows up. -/
def dminStep (m x : Date) : Date :=
  if dateLt x m then x else m

/-- One step of Python's `max` scan: replace when a strictly later date
shows up. -/
def dmaxStep (m x : Date) : Date :=
  if dateLt m x then x else m

/-- `min(dates)` of the source (arbitrary value on the empty list, which is
ruled out by validation). -/
def minD : List Date → Date
  | [] => ⟨0, 1, 1⟩
  | x :: xs => xs.foldl dminStep x

/-- `max(dates)` of the source. -/
def maxD : List Date → Date
  | [] => ⟨0, 1, 1⟩
  | x :: xs => xs.foldl dmaxStep x

theorem dateLt_le {a b : Date} (h : dateLt a b) : dateLe a b := by
  unfold dateLt dateLe at *; omega

theorem dminStep_le_left (m x : Date) : dateLe (dminStep m x) m := by
  unfold dminStep
  split
  · exact dateLt_le (by assumption)
  · exact dateLe_refl m

theorem dminStep_le_right (m x : Date) : dateLe (dminStep m x) x := by
  unfold dminStep
  split
  · exact dateLe_refl x
  · exact not_dateLt_iff.mp (by assumption)

theorem dmaxStep_ge_left (m x : Date) : dateLe m (dmaxStep m x) := by
  unfold dmaxStep
  split
  · exact dateLt_le (by assumption)
  · exact dateLe_refl m

theorem dmaxStep_ge_right (m x : Date) : dateLe x (dmaxStep m x) := by
  unfold dmaxStep
  split
  · exact dateLe_refl x
  · exact not_dateLt_iff.mp (by assumption)

theorem foldl_dminStep_le_init (l : List Date) (a : Date) :
    dateLe (l.foldl dminStep a) a := by
  induction l generalizing a with
  | nil => exact dateLe_refl a
  | cons x xs ih =>
    exact dateLe_trans (ih (dminStep a x)) (dminStep_le_left a x)

theorem foldl_dminStep_le_mem (l : List Date) (a : Date) :
    ∀ x ∈ l, dateLe (l.foldl dminStep a) x := by
  induction l generalizing a with
  | nil => intro x hx; exact absurd hx (by simp)
  | cons y ys ih =>
    intro x hx
    rcases List.mem_cons.mp hx with h | h
    · subst h
      exact dateLe_trans (foldl_dminStep_le_init ys (dminStep a x))
        (dminStep_le_right a x)
    · exact ih (dminStep a y) x h

theorem foldl_dmaxStep_ge_init (l : List Date) (a : Date) :
    dateLe a (l.foldl dmaxStep a) := by
  induction l generalizing a with
  | nil => exact dateLe_refl a
  | cons x xs ih =>
    exact dateLe_trans (dmaxStep_ge_left a x) (ih (dmaxStep a x))

theorem foldl_dmaxStep_ge_mem (l : List Date) (a : Date) :
    ∀ x ∈ l, dateLe x (l.foldl dmaxStep a) := by
  induction l generalizing a with
  | nil => intro x hx; exact absurd hx (by simp)
  | cons y ys ih =>
    intro x hx
    rcases List.mem_cons.mp hx with h | h
    · subst h
      exact dateLe_trans (dmaxStep_ge_right a x)
        (foldl_dmaxStep_ge_init ys (dmaxStep a x))
    · exact ih (dmaxStep a y) x h

theorem minD_le_mem {l : List Date} : ∀ x ∈ l, dateLe (minD l) x := by
  cases l with
  | nil => intro x hx; exact absurd hx (by simp)
  | cons y ys =>
    intro x hx
    rcases List.mem_cons.mp hx with h | h
    · subst h; exact foldl_dminStep_le_init ys x
    · exact foldl_dminStep_le_mem ys y x h

theorem maxD_ge_mem {l : List Date} : ∀ x ∈ l, dateLe x (maxD l) := by
  cases l with
  | nil => intro x hx; exact absurd hx (by simp)
  | cons y ys =>
    intro x hx
    rcases List.mem_cons.mp hx with h | h
    · subst h; exact foldl_dmaxStep_ge_init ys x
    · exact foldl_dmaxStep_ge_mem ys y x h


theorem dminStep_rightComm (m x y : Date) :
    dminStep (dminStep m x) y = dminStep (dminStep m y) x := by
  obtain ⟨a1, a2, a3⟩ := m; obtain ⟨b1, b2, b3⟩ := x; obtain ⟨c1, c2, c3⟩ := y
  simp only [dminStep, dateLt]
  split_ifs <;> first
    | rfl
    | (simp_all only [Date.mk.injEq]; omega)

theorem dmaxStep_rightComm (m x y : Date) :
    dmaxStep (dmaxStep m x) y = dmaxStep (dmaxStep m y) x := by
  obtain ⟨a1, a2, a3⟩ := m; obtain ⟨b1, b2, b3⟩ := x; obtain ⟨c1, c2, c3⟩ := y
  simp only [dmaxStep, dateLt]
  split_ifs <;> first
    | rfl
    | (simp_all only [Date.mk.injEq]; omega)

theorem foldl_dminStep_out (l : List Date) (a x : Date) :
    l.foldl dminStep (dminStep a x) = dminStep (l.foldl dminStep a) x := by
  induction l generalizing a with
  | nil => rfl
  | cons y ys ih =>
    simp only [List.foldl_cons]
    rw [dminStep_rightComm a x y, ih]

theorem foldl_dmaxStep_out (l : List Date) (a x : Date) :
    l.foldl dmaxStep (dmaxStep a x) = dmaxStep (l.foldl dmaxStep a) x := by
  induction l generalizing a with
  | nil => rfl
  | cons y ys ih =>
    simp only [List.foldl_cons]
    rw [dmaxStep_rightComm a x y, ih]

theorem dminStep_comm (a b : Date) : dminStep a b = dminStep b a := by
  obtain ⟨a1, a2, a3⟩ := a; obtain ⟨b1, b2, b3⟩ := b
  simp only [dminStep, dateLt]
  split_ifs <;> first
    | rfl
    | (simp_all only [Date.mk.injEq]; omega)

theorem dmaxStep_comm (a b : Date) : dmaxStep a b = dmaxStep b a := by
  obtain ⟨a1, a2, a3⟩ := a; obtain ⟨b1, b2, b3⟩ := b
  simp only [dmaxStep, dateLt]
  split_ifs <;> first
    | rfl
    | (simp_all only [Date.mk.injEq]; omega)

theorem foldl_dminStep_last_swap (l : List Date) (a b : Date) :
    dminStep (l.foldl dminStep a) b = dminStep (l.foldl dminStep b) a := by
  induction l generalizing a b with
  | nil => exact dminStep_comm a b
  | cons x xs ih =>
    calc dminStep ((x :: xs).foldl dminStep a) b
        = dminStep (xs.foldl dminStep (dminStep a x)) b := rfl
      _ = dminStep (dminStep (xs.foldl dminStep a) x) b := by
            rw [foldl_dminStep_out]
      _ = dminStep (dminStep (xs.foldl dminStep a) b) x := by
            rw [dminStep_rightComm]
      _ = dminStep (dminStep (xs.foldl dminStep b) a) x := by rw [ih]
      _ = dminStep (dminStep (xs.foldl dminStep b) x) a := by
            rw [dminStep_rightComm]
      _ = dminStep (xs.foldl dminStep (dminStep b x)) a := by
            rw [foldl_dminStep_out]
      _ = dminStep ((x :: xs).foldl dminStep b) a := rfl

theorem foldl_dmaxStep_last_swap (l : List Date) (a b : Date) :
    dmaxStep (l.foldl dmaxStep a) b = dmaxStep (l.foldl dmaxStep b) a := by
  induction l generalizing a b with
  | nil => exact dmaxStep_comm a b
  | cons x xs ih =>
    calc dmaxStep ((x :: xs).foldl dmaxStep a) b
        = dmaxStep (xs.foldl dmaxStep (dmaxStep a x)) b := rfl
      _ = dmaxStep (dmaxStep (xs.foldl dmaxStep a) x) b := by
            rw [foldl_dmaxStep_out]
      _ = dmaxStep (dmaxStep (xs.foldl dmaxStep a) b) x := by
            rw [dmaxStep_rightComm]
      _ = dmaxStep (dmaxStep (xs.foldl dmaxStep b) a) x := by rw [ih]
      _ = dmaxStep (dmaxStep (xs.foldl dmaxStep b) x) a := by
            rw [dmaxStep_rightComm]
      _ = dmaxStep (xs.foldl dmaxStep (dmaxStep b x)) a := by
            rw [foldl_dmaxStep_out]
      _ = dmaxStep ((x :: xs).foldl dmaxStep b) a := rfl

/-- Swapping two entries of a date list does not change its `min`. -/
theorem minD_swap (pa pb pc : List Date) (q1 q2 : Date) :
    minD (pa ++ q1 :: pb ++ q2 :: pc) = minD (pa ++ q2 :: pb ++ q1 :: pc) := by
  cases pa with
  | nil =>
    show (pb ++ q2 :: pc).foldl dminStep q1 = (pb ++ q1 :: pc).foldl dminStep q2
    have h : dminStep (pb.foldl dminStep q1) q2
        = dminStep (pb.foldl dminStep q2) q1 :=
      foldl_dminStep_last_swap pb q1 q2
    simp only [List.foldl_append, List.foldl_cons]
    rw [h]
  | cons p0 pa' =>
    show (pa' ++ q1 :: pb ++ q2 :: pc).foldl dminStep p0
        = (pa' ++ q2 :: pb ++ q1 :: pc).foldl dminStep p0
    have h : dminStep (pb.foldl dminStep
          (dminStep (pa'.foldl dminStep p0) q1)) q2
        = dminStep (pb.foldl dminStep
          (dminStep (pa'.foldl dminStep p0) q2)) q1 := by
      rw [foldl_dminStep_out pb (pa'.foldl dminStep p0) q1,
        foldl_dminStep_out pb (pa'.foldl dminStep p0) q2, dminStep_rightComm]
    simp only [List.foldl_append, List.foldl_cons]
    rw [h]

/-- Swapping two entries of a date list does not change its `max`. -/
theorem maxD_swap (pa pb pc : List Date) (q1 q2 : Date) :
    maxD (pa ++ q1 :: pb ++ q2 :: pc) = maxD (pa ++ q2 :: pb ++ q1 :: pc) := by
  cases pa with
  | nil =>
    show (pb ++ q2 :: pc).foldl dmaxStep q1 = (pb ++ q1 :: pc).foldl dmaxStep q2
    have h : dmaxStep (pb.foldl dmaxStep q1) q2
        = dmaxStep (pb.foldl dmaxStep q2) q1 :=
      foldl_dmaxStep_last_swap pb q1 q2
    simp only [List.foldl_append, List.foldl_cons]
    rw [h]
  | cons p0 pa' =>
    show (pa' ++ q1 :: pb ++ q2 :: pc).foldl dmaxStep p0
        = (pa' ++ q2 :: pb ++ q1 :: pc).foldl dmaxStep p0
    have h : dmaxStep (pb.foldl dmaxStep
          (dmaxStep (pa'.foldl dmaxStep p0) q1)) q2
        = dmaxStep (pb.foldl dmaxStep
          (dmaxStep (pa'.foldl dmaxStep p0) q2)) q1 := by
      rw [foldl_dmaxStep_out pb (pa'.foldl dmaxStep p0) q1,
        foldl_dmaxStep_out pb (pa'.foldl dmaxStep p0) q2, dmaxStep_rightComm]
    simp only [List.foldl_append, List.foldl_cons]
    rw [h]

/-- Kind of a contract leg ('type' key of the operation dicts). -/
inductive OpKind where
  | injection
  | withdrawal
deriving DecidableEq, Repr

/-- One entry of the merged `operations` list of `price_storage_contract`
(the source also stores an `index` key, which is never read afterwards). -/
structure Op where
  date : Date
  kind : OpKind
  volume : ℚ
deriving DecidableEq, Repr

/-- The merged operations list: all injections in input order, then all
withdrawal legs in input order, as the two `for` loops of the source
append them. -/
def mkOps (injP wdP : List Date) (injV wdV : List ℚ) : List Op :=
  (injP.zip injV).map (fun p => ⟨p.1, .injection, p.2⟩) ++
    (wdP.zip wdV).map (fun p => ⟨p.1, .withdrawal, p.2⟩)

/-- Insert an operation into an already-processed list, before the first
entry that is not strictly earlier.  Auxiliary for `sortOps`. -/
def insertOp (x : Op) : List Op → List Op
  | [] => [x]
  | y :: ys => if dateLe x.date y.date then x :: y :: ys else y :: insertOp x ys

/-- `operations.sort(key=lambda x: x['date'])` of the source: Python's sort
is stable and ascending; a stable ascending sort is a unique function of
the input, here realised as a stable insertion sort. -/
def sortOps : List Op → List Op
  | [] => []
  | x :: xs => insertOp x (sortOps xs)

theorem insertOp_perm (x : Op) (l : List Op) : List.Perm (insertOp x l) (x :: l) := by
  induction l with
  | nil => exact List.Perm.refl _
  | cons y ys ih =>
    unfold insertOp
    split
    · exact List.Perm.refl _
    · exact (List.Perm.cons y ih).trans (List.Perm.swap x y ys)

theorem sortOps_perm (l : List Op) : List.Perm (sortOps l) l := by
  induction l with
  | nil => exact List.Perm.refl _
  | cons x xs ih =>
    exact (insertOp_perm x (sortOps xs)).trans (List.Perm.cons x ih)

theorem insertOp_pairwise {x : Op} {l : List Op}
    (h : l.Pairwise (fun a b => dateLe a.date b.date)) :
    (insertOp x l).Pairwise (fun a b => dateLe a.date b.date) := by
  induction l with
  | nil => simp [insertOp]
  | cons y ys ih =>
    unfold insertOp
    split
    · rename_i hxy
      refine List.Pairwise.cons ?_ h
      intro z hz
      rcases List.mem_cons.mp hz with h1 | h1
      · exact h1 ▸ hxy
      · exact dateLe_trans hxy ((List.pairwise_cons.mp h).1 z h1)
    · rename_i hxy
      rw [List.pairwise_cons] at h
      refine List.Pairwise.cons ?_ (ih h.2)
      intro z hz
      have hzmem := (insertOp_perm x ys).mem_iff.mp hz
      rcases List.mem_cons.mp hzmem with h1 | h1
      · exact h1 ▸ not_dateLe_iff.mp hxy |> dateLt_le
      · exact h.1 z h1

theorem sortOps_pairwise (l : List Op) :
    (sortOps l).Pairwise (fun a b => dateLe a.date b.date) := by
  induction l with
  | nil => simp [sortOps]
  | cons x xs ih => exact insertOp_pairwise ih

theorem sublist_insertOp (x : Op) (l : List Op) : List.Sublist l (insertOp x l) := by
  induction l with
  | nil => exact List.nil_sublist _
  | cons y ys ih =>
    unfold insertOp
    split
    · exact (List.sublist_cons_self x (y :: ys))
    · exact List.Sublist.cons₂ y ih

/-- Stability of the insertion step: inserting `a` lands before any `b`
already present with `dateLe a.date b.date`. -/
theorem pair_sublist_insertOp {a b : Op} {l : List Op} (hmem : b ∈ l)
    (hab : dateLe a.date b.date) : List.Sublist [a, b] (insertOp a l) := by
  induction l with
  | nil => exact absurd hmem (by simp)
  | cons y ys ih =>
    unfold insertOp
    split
    · rename_i hay
      exact List.Sublist.cons₂ a (List.singleton_sublist.mpr hmem)
    · rename_i hay
      have hby : b ≠ y := by
        intro heq
        exact hay (heq ▸ hab)
      have hbys : b ∈ ys := by
        rcases List.mem_cons.mp hmem with h1 | h1
        · exact absurd h1 hby
        · exact h1
      exact List.Sublist.cons y (ih hbys)

/-- Stability of `sortOps`: a pair that appears in order in the input and
is weakly ordered by date appears in the same order in the output. -/
theorem pair_sublist_sortOps {a b : Op} {l : List Op} (h : List.Sublist [a, b] l)
    (hab : dateLe a.date b.date) : List.Sublist [a, b] (sortOps l) := by
  induction l with
  | nil => exact absurd h (by simp)
  | cons x xs ih =>
    rw [List.sublist_cons_iff] at h
    rcases h with h | ⟨r, hr1, hr2⟩
    · exact (ih h).trans (sublist_insertOp x (sortOps xs))
    · -- [a, b] = x :: r with r <+ xs, so x = a and [b] = r
      cases hr1
      have hbxs : b ∈ xs := List.singleton_sublist.mp hr2
      have hbsorted : b ∈ sortOps xs := (sortOps_perm xs).mem_iff.mpr hbxs
      exact pair_sublist_insertOp hbsorted hab

/-- Error taxonomy of `price_storage_contract` (the source raises
`ValueError` with a distinct message for each of these) and of fitting. -/
inductive PSCError where
  | mismatchedLength
  | emptySchedule
  | invalidDate
  | nonPositiveVolume
  | volumeMismatch
  | capacityExceeded
  | insufficientStorage
  | invalidScheduleOrder
deriving DecidableEq, Repr

/-- One step of the occupancy replay: add the volume on an injection,
subtract it on a withdrawal. -/
def occStep (occ : ℚ) (op : Op) : ℚ :=
  match op.kind with
  | .injection => occ + op.volume
  | .withdrawal => occ - op.volume

/-- Occupancy after the first `k` operations of `ops`, starting from 0. -/
def occAfter (ops : List Op) (k : ℕ) : ℚ :=
  (ops.take k).foldl occStep 0

/-- The capacity-checking replay of the source: walk the sorted operations,
keep `current_storage`, fail on the first over-capacity injection or
under-zero withdrawal. -/
def runSim (cap : ℚ) : ℚ → List Op → Except PSCError ℚ
  | occ, [] => .ok occ
  | occ, op :: rest =>
    match op.kind with
    | .injection =>
      if occ + op.volume > cap then .error .capacityExceeded
      else runSim cap (occ + op.volume) rest
    | .withdrawal =>
      if occ - op.volume < 0 then .error .insufficientStorage
      else runSim cap (occ - op.volume) rest

/-- `(target.year - ref.year) * 12 + (target.month - ref.month)`, the
month-difference formula shared by `estimate_price` and the
storage-duration computation. -/
def monthsDiff (ref target : Date) : ℤ :=
  ((target.y : ℤ) - (ref.y : ℤ)) * 12 + ((target.m : ℤ) - (ref.m : ℤ))

/-- The `storage_costs` dictionary (defaults are supplied when the caller
passes `None`). -/
structure StorageCosts where
  monthly_storage_fee : ℚ
  injection_cost : ℚ
  withdrawal_cost : ℚ
  transport_cost_per_trip : ℚ
deriving DecidableEq, Repr

/-- The default `storage_costs` dictionary of the source. -/
def defaultStorageCosts : StorageCosts :=
  { monthly_storage_fee := 100000
    injection_cost := 10
    withdrawal_cost := 10
    transport_cost_per_trip := 25000 }

/-- One entry of `injection_details` / `withdrawal_details`: original date
string, volume, estimated unit price and the leg's cost (for injections)
or revenue (for withdrawals), held in the common field `amount`. -/
structure LegDetail where
  date : String
  volume : ℚ
  price : ℚ
  amount : ℚ
deriving DecidableEq, Repr

/-- The result dictionary of a successful `price_storage_contract` call. -/
structure ContractResult where
  contract_value : ℚ
  total_sale_revenue : ℚ
  total_purchase_cost : ℚ
  total_injection_cost : ℚ
  total_withdrawal_cost : ℚ
  total_transport_cost : ℚ
  total_storage_cost : ℚ
  duration_months : ℤ
  total_volume : ℚ
  injection_details : List LegDetail
  withdrawal_details : List LegDetail
deriving DecidableEq, Repr

/-- Python's `abs` on exact rationals. -/
def ratAbs (q : ℚ) : ℚ := if q < 0 then -q else q

theorem ratAbs_eq_abs (q : ℚ) : ratAbs q = |q| := by
  unfold ratAbs
  split
  · exact (abs_of_neg (by assumption)).symm
  · exact (abs_of_nonneg (by linarith [not_lt.mp (by assumption)])).symm

/-- Validation steps 1-6 of the source, in source order: length matches,
non-empty schedules, date parsing, positive volumes, volume balance within
`1e-6`.  Returns the parsed date lists on success. -/
def validateAndParse (injD wdD : List String) (injV wdV : List ℚ) :
    Except PSCError (List Date × List Date) :=
  if injD.length ≠ injV.length then .error .mismatchedLength
  else if wdD.length ≠ wdV.length then .error .mismatchedLength
  else if injD.length = 0 ∨ wdD.length = 0 then .error .emptySchedule
  else
    match parseAll injD, parseAll wdD with
    | some injP, some wdP =>
      if ∃ v ∈ injV, v ≤ 0 then .error .nonPositiveVolume
      else if ∃ v ∈ wdV, v ≤ 0 then .error .nonPositiveVolume
      else if ratAbs (injV.sum - wdV.sum) > 1 / 1000000 then .error .volumeMismatch
      else .ok (injP, wdP)
    | _, _ => .error .invalidDate

/-- The per-leg detail records built by the two accounting loops.  The
source loops over the original date strings and re-parses each one inside
`get_price`; validation has already established that each string parses to
the corresponding entry of the parsed list, which is used here. -/
def mkDetails (gp : Date → ℚ) (ds : List String) (ps : List Date)
    (vs : List ℚ) : List LegDetail :=
  (ds.zip (ps.zip vs)).map fun t =>
    { date := t.1
      volume := t.2.2
      price := gp t.2.1
      amount := t.2.2 * gp t.2.1 }

/-- The result record assembled after all checks pass: accounting loops,
storage duration (floored to one month when zero) and final value. -/
def mkResult (gp : Date → ℚ) (injD wdD : List String) (injV wdV : List ℚ)
    (injP wdP : List Date) (costs : StorageCosts) : ContractResult :=
  let injDet := mkDetails gp injD injP injV
  let wdDet := mkDetails gp wdD wdP wdV
  let purchase := (injDet.map (·.amount)).sum
  let revenue := (wdDet.map (·.amount)).sum
  let injCost := (injV.map (fun v => v / 1000000 * costs.injection_cost)).sum
  let wdCost := (wdV.map (fun v => v / 1000000 * costs.withdrawal_cost)).sum
  let transport := (injD.length : ℚ) * costs.transport_cost_per_trip
    + (wdD.length : ℚ) * costs.transport_cost_per_trip
  let dm0 := monthsDiff (minD injP) (maxD wdP)
  let dm : ℤ := if dm0 = 0 then 1 else dm0
  let storage := (dm : ℚ) * costs.monthly_storage_fee
  { contract_value := revenue - purchase - injCost - wdCost - transport - storage
    total_sale_revenue := revenue
    total_purchase_cost := purchase
    total_injection_cost := injCost
    total_withdrawal_cost := wdCost
    total_transport_cost := transport
    total_storage_cost := storage
    duration_months := dm
    total_volume := injV.sum
    injection_details := injDet
    withdrawal_details := wdDet }

/-- `price_storage_contract`.  The fitted estimator built from the CSV
price history is abstracted as the total price-lookup function `gp`
(`get_price` of the source).  The second component counts how many price
lookups the call performs: the error paths of validation steps 1-7 return
before the accounting loops run (0 lookups), while the schedule-order
check of the source sits after both accounting loops (one lookup per leg).
An `.error` result carries no result record, mirroring the raised
exception. -/
def price_storage_contract (gp : Date → ℚ) (injD wdD : List String)
    (injV wdV : List ℚ) (cap : ℚ) (costs : StorageCosts) :
    Except PSCError ContractResult × ℕ :=
  match validateAndParse injD wdD injV wdV with
  | .error e => (.error e, 0)
  | .ok (injP, wdP) =>
    match runSim cap 0 (sortOps (mkOps injP wdP injV wdV)) with
    | .error e => (.error e, 0)
    | .ok _ =>
      if dateLt (maxD wdP) (minD injP) then
        (.error .invalidScheduleOrder, injD.length + wdD.length)
      else
        (.ok (mkResult gp injD wdD injV wdV injP wdP costs),
          injD.length + wdD.length)

instance {ε α : Type} [DecidableEq ε] [DecidableEq α] :
    DecidableEq (Except ε α)
  | .error e, .error f =>
    if h : e = f then .isTrue (by rw [h]) else .isFalse (by simp [h])
  | .error _, .ok _ => .isFalse (by simp)
  | .ok _, .error _ => .isFalse (by simp)
  | .ok a, .ok b =>
    if h : a = b then .isTrue (by rw [h]) else .isFalse (by simp [h])

theorem mkOps_mem_inj {injP wdP : List Date} {injV wdV : List ℚ} {op : Op}
    (hop : op ∈ mkOps injP wdP injV wdV) (hk : op.kind = .injection) :
    op.date ∈ injP ∧ op.volume ∈ injV := by
  unfold mkOps at hop
  rcases List.mem_append.mp hop with h | h
  · obtain ⟨p, hpz, heq⟩ := List.mem_map.mp h
    have := List.of_mem_zip hpz
    subst heq
    exact this
  · obtain ⟨p, hpz, heq⟩ := List.mem_map.mp h
    rw [← heq] at hk
    exact absurd hk (by simp)

theorem mkOps_mem_wd {injP wdP : List Date} {injV wdV : List ℚ} {op : Op}
    (hop : op ∈ mkOps injP wdP injV wdV) (hk : op.kind = .withdrawal) :
    op.date ∈ wdP ∧ op.volume ∈ wdV := by
  unfold mkOps at hop
  rcases List.mem_append.mp hop with h | h
  · obtain ⟨p, hpz, heq⟩ := List.mem_map.mp h
    rw [← heq] at hk
    exact absurd hk (by simp)
  · obtain ⟨p, hpz, heq⟩ := List.mem_map.mp h
    have := List.of_mem_zip hpz
    subst heq
    exact this

theorem mkOps_wd_exists {injP wdP : List Date} {injV wdV : List ℚ}
    (hlen : wdP.length = wdV.length) (hne : wdP ≠ []) :
    ∃ op ∈ mkOps injP wdP injV wdV, op.kind = .withdrawal := by
  have hzlen : (wdP.zip wdV).length = wdP.length := by
    rw [List.length_zip, hlen, Nat.min_self]
  have hzne : wdP.zip wdV ≠ [] := by
    intro hz
    apply hne
    have : wdP.length = 0 := by rw [← hzlen, hz]; rfl
    exact List.eq_nil_of_length_eq_zero this
  obtain ⟨p, hp⟩ := List.exists_mem_of_ne_nil _ hzne
  refine ⟨⟨p.1, .withdrawal, p.2⟩, ?_, rfl⟩
  unfold mkOps
  refine List.mem_append.mpr (Or.inr ?_)
  exact List.mem_map.mpr ⟨p, hp, rfl⟩

/-- If the replay succeeds from a non-positive starting occupancy, every
withdrawal in a date-sorted operations list is preceded (weakly, by date)
by some injection: the head of the list cannot be a withdrawal. -/
theorem runSim_wd_has_earlier_inj {cap fin : ℚ} {S : List Op} {occ : ℚ}
    (hpair : S.Pairwise (fun a b => dateLe a.date b.date))
    (hsim : runSim cap occ S = .ok fin)
    (hpos : ∀ op ∈ S, op.kind = .withdrawal → 0 < op.volume)
    (hocc : occ ≤ 0) :
    ∀ w ∈ S, w.kind = .withdrawal →
      ∃ i ∈ S, i.kind = .injection ∧ dateLe i.date w.date := by
  intro w hw hwk
  cases S with
  | nil => exact absurd hw (by simp)
  | cons op rest =>
    rcases List.mem_cons.mp hw with heq | hmem
    · subst heq
      unfold runSim at hsim
      simp only [hwk] at hsim
      have hv := hpos w (by simp) hwk
      rw [if_pos (by linarith)] at hsim
      exact absurd hsim (by simp)
    · cases hk : op.kind with
      | injection =>
        exact ⟨op, by simp, hk, (List.pairwise_cons.mp hpair).1 w hmem⟩
      | withdrawal =>
        unfold runSim at hsim
        simp only [hk] at hsim
        have hv := hpos op (by simp) hk
        rw [if_pos (by linarith)] at hsim
        exact absurd hsim (by simp)

/-- When the capacity replay succeeds on the sorted merged schedule (with
positive withdrawal volumes), the first injection cannot be later than the
last withdrawal, so the schedule-order check of the source can never fire. -/
theorem sim_ok_order {cap fin : ℚ} {injP wdP : List Date} {injV wdV : List ℚ}
    (hlenW : wdP.length = wdV.length)
    (hneW : wdP ≠ [])
    (hposW : ∀ v ∈ wdV, 0 < v)
    (hsim : runSim cap 0 (sortOps (mkOps injP wdP injV wdV)) = .ok fin) :
    dateLe (minD injP) (maxD wdP) := by
  set ops := mkOps injP wdP injV wdV with hops
  set S := sortOps ops with hS
  have hpair := sortOps_pairwise ops
  have hperm := sortOps_perm ops
  have hpos : ∀ op ∈ S, op.kind = .withdrawal → 0 < op.volume := by
    intro op hop hk
    have hmem : op ∈ ops := hperm.mem_iff.mp hop
    exact hposW op.volume (mkOps_mem_wd hmem hk).2
  obtain ⟨w, hwops, hwk⟩ := @mkOps_wd_exists injP wdP injV wdV hlenW hneW
  have hwS : w ∈ S := hperm.mem_iff.mpr hwops
  obtain ⟨i, hiS, hik, hile⟩ :=
    runSim_wd_has_earlier_inj hpair hsim hpos (le_refl 0) w hwS hwk
  have hiops : i ∈ ops := hperm.mem_iff.mp hiS
  have hidate : i.date ∈ injP := (mkOps_mem_inj hiops hik).1
  have hwdate : w.date ∈ wdP := (mkOps_mem_wd hwops hwk).1
  exact dateLe_trans (minD_le_mem i.date hidate)
    (dateLe_trans hile (maxD_ge_mem w.date hwdate))

theorem validateAndParse_ok {injD wdD : List String} {injV wdV : List ℚ}
    {injP wdP : List Date}
    (h : validateAndParse injD wdD injV wdV = .ok (injP, wdP)) :
    injD.length = injV.length ∧ wdD.length = wdV.length ∧
    injD ≠ [] ∧ wdD ≠ [] ∧
    parseAll injD = some injP ∧ parseAll wdD = some wdP ∧
    (∀ v ∈ injV, 0 < v) ∧ (∀ v ∈ wdV, 0 < v) ∧
    ratAbs (injV.sum - wdV.sum) ≤ 1 / 1000000 := by
  unfold validateAndParse at h
  split at h
  · exact absurd h (by simp)
  split at h
  · exact absurd h (by simp)
  split at h
  · exact absurd h (by simp)
  rename_i hlen1 hlen2 hlen3
  split at h
  case _ injP' wdP' hpi hpw =>
    split at h
    · exact absurd h (by simp)
    split at h
    · exact absurd h (by simp)
    split at h
    · exact absurd h (by simp)
    rename_i hposI hposW htol
    rw [Except.ok.injEq, Prod.mk.injEq] at h
    obtain ⟨h1, h2⟩ := h
    subst h1; subst h2
    refine ⟨by omega, by omega, ?_, ?_, hpi, hpw, ?_, ?_, by linarith [not_lt.mp htol]⟩
    · intro hx; apply hlen3; left; rw [hx]; rfl
    · intro hx; apply hlen3; right; rw [hx]; rfl
    · intro v hv
      by_contra hc
      exact hposI ⟨v, hv, by linarith⟩
    · intro v hv
      by_contra hc
      exact hposW ⟨v, hv, by linarith⟩
  case _ =>
    exact absurd h (by simp)

theorem psc_ok_inv {gp : Date → ℚ} {injD wdD : List String}
    {injV wdV : List ℚ} {cap : ℚ} {costs : StorageCosts} {r : ContractResult}
    (h : (price_storage_contract gp injD wdD injV wdV cap costs).fst = .ok r) :
    ∃ injP wdP fin,
      validateAndParse injD wdD injV wdV = .ok (injP, wdP) ∧
      runSim cap 0 (sortOps (mkOps injP wdP injV wdV)) = .ok fin ∧
      ¬ dateLt (maxD wdP) (minD injP) ∧
      r = mkResult gp injD wdD injV wdV injP wdP costs := by
  unfold price_storage_contract at h
  cases hval : validateAndParse injD wdD injV wdV with
  | error e => rw [hval] at h; exact absurd h (by simp)
  | ok p =>
    obtain ⟨injP, wdP⟩ := p
    simp only [hval] at h
    cases hsim : runSim cap 0 (sortOps (mkOps injP wdP injV wdV)) with
    | error e => rw [hsim] at h; exact absurd h (by simp)
    | ok fin =>
      simp only [hsim] at h
      by_cases hord : dateLt (maxD wdP) (minD injP)
      · rw [if_pos hord] at h
        exact absurd h (by simp)
      · rw [if_neg hord] at h
        simp only [Except.ok.injEq] at h
        exact ⟨injP, wdP, fin, rfl, hsim, hord, h.symm⟩

/-- C1.  A failed `price_storage_contract` call performs no price lookups:
the count of `get_price` calls at the moment an error is raised is zero.
Validation steps 1-7 of the source return before the accounting loops; the
schedule-order check (step 8) is placed after the accounting loops in the
source, but it can never fire, because any schedule whose last withdrawal
precedes its first injection already fails the occupancy replay (step 7)
with `InsufficientStorageError`.  An `.error` result carries no
`ContractResult`, so a failed call also produces no partial result. -/
theorem validation_failure_performs_no_pricing
    (gp : Date → ℚ) (injD wdD : List String) (injV wdV : List ℚ)
    (cap : ℚ) (costs : StorageCosts) (e : PSCError)
    (h : (price_storage_contract gp injD wdD injV wdV cap costs).fst = .error e) :
    (price_storage_contract gp injD wdD injV wdV cap costs).snd = 0 := by
  unfold price_storage_contract at *
  cases hval : validateAndParse injD wdD injV wdV with
  | error e' => simp only [hval]
  | ok p =>
    obtain ⟨injP, wdP⟩ := p
    simp only [hval] at h ⊢
    cases hsim : runSim cap 0 (sortOps (mkOps injP wdP injV wdV)) with
    | error e' => simp only [hsim]
    | ok fin =>
      simp only [hsim] at h ⊢
      obtain ⟨hl1, hl2, hne1, hne2, hpi, hpw, hposI, hposW, htol⟩ :=
        validateAndParse_ok hval
      have hlenW : wdP.length = wdV.length := by
        rw [parseAll_length hpw, hl2]
      have hneW : wdP ≠ [] := by
        intro hx
        apply hne2
        have hlw := parseAll_length hpw
        rw [hx] at hlw
        exact List.eq_nil_of_length_eq_zero hlw.symm
      have hord := sim_ok_order hlenW hneW hposW hsim
      have hlt : ¬ dateLt (maxD wdP) (minD injP) := not_dateLt_iff.mpr hord
      rw [if_neg hlt] at h
      exact absurd h (by simp)

theorem zip_map_snd {α β γ : Type} (g : β → γ) :
    ∀ (l1 : List α) (l2 : List β), l1.length = l2.length →
      (l1.zip l2).map (fun p => g p.2) = l2.map g
  | [], [], _ => rfl
  | [], _ :: _, h => by simp at h
  | _ :: _, [], h => by simp at h
  | a :: l1, b :: l2, h => by
    simp only [List.zip_cons_cons, List.map_cons]
    rw [zip_map_snd g l1 l2 (by simpa using h)]

theorem mkDetails_amounts (gp : Date → ℚ) (ds : List String) (ps : List Date)
    (vs : List ℚ) (h1 : ds.length = ps.length) (h2 : ps.length = vs.length) :
    (mkDetails gp ds ps vs).map (·.amount)
      = (ps.zip vs).map (fun p => p.2 * gp p.1) := by
  unfold mkDetails
  rw [List.map_map]
  have hlen : ds.length = (ps.zip vs).length := by
    rw [List.length_zip]; omega
  exact zip_map_snd (fun q => q.2 * gp q.1) ds (ps.zip vs) hlen

/-- C2.  On every accepted call, `contract_value` is revenue minus the five
cost components, and each component is the corresponding sum over the legs:
purchase (resp. sale) totals are `volume * estimated price` summed over the
injection (resp. withdrawal) legs, injection/withdrawal fees are
`volume / 1e6` times the respective unit cost, and transport cost is one
`transport_cost_per_trip` per leg. -/
theorem contract_value_accounting
    (gp : Date → ℚ) (injD wdD : List String) (injV wdV : List ℚ)
    (cap : ℚ) (costs : StorageCosts) (injP wdP : List Date) (r : ContractResult)
    (hpi : parseAll injD = some injP) (hpw : parseAll wdD = some wdP)
    (hok : (price_storage_contract gp injD wdD injV wdV cap costs).fst = .ok r) :
    r.contract_value = r.total_sale_revenue - r.total_purchase_cost
      - r.total_injection_cost - r.total_withdrawal_cost
      - r.total_transport_cost - r.total_storage_cost ∧
    r.total_purchase_cost = ((injP.zip injV).map (fun p => p.2 * gp p.1)).sum ∧
    r.total_sale_revenue = ((wdP.zip wdV).map (fun p => p.2 * gp p.1)).sum ∧
    r.total_injection_cost
      = (injV.map (fun v => v / 1000000 * costs.injection_cost)).sum ∧
    r.total_withdrawal_cost
      = (wdV.map (fun v => v / 1000000 * costs.withdrawal_cost)).sum ∧
    r.total_transport_cost
      = ((injD.length + wdD.length : ℕ) : ℚ) * costs.transport_cost_per_trip := by
  obtain ⟨injP0, wdP0, fin, hval, hsim, hord, hr⟩ := psc_ok_inv hok
  obtain ⟨hl1, hl2, hne1, hne2, hpi0, hpw0, hposI, hposW, htol⟩ :=
    validateAndParse_ok hval
  have hinj : injP0 = injP := by
    rw [hpi0] at hpi
    exact (Option.some.injEq _ _).mp hpi
  have hwd : wdP0 = wdP := by
    rw [hpw0] at hpw
    exact (Option.some.injEq _ _).mp hpw
  rw [hinj] at hr hpi0
  rw [hwd] at hr hpw0
  subst hr
  have hlenI : injD.length = injP.length := (parseAll_length hpi0).symm
  have hlenW : wdD.length = wdP.length := (parseAll_length hpw0).symm
  refine ⟨rfl, ?_, ?_, rfl, rfl, ?_⟩
  · show ((mkDetails gp injD injP injV).map (·.amount)).sum = _
    rw [mkDetails_amounts gp injD injP injV hlenI (by omega)]
  · show ((mkDetails gp wdD wdP wdV).map (·.amount)).sum = _
    rw [mkDetails_amounts gp wdD wdP wdV hlenW (by omega)]
  · show (injD.length : ℚ) * costs.transport_cost_per_trip
        + (wdD.length : ℚ) * costs.transport_cost_per_trip = _
    push_cast
    ring

/-- Witness for C1 at a concrete failing input: one injection date against
an empty injection-volume list raises the length-mismatch error with zero
price lookups. -/
theorem validation_failure_performs_no_pricing_witness :
    (price_storage_contract (fun _ => 0) ["2024-06-01"] [] [] [] 100
        defaultStorageCosts).fst = .error .mismatchedLength ∧
    (price_storage_contract (fun _ => 0) ["2024-06-01"] [] [] [] 100
        defaultStorageCosts).snd = 0 :=
  ⟨rfl, validation_failure_performs_no_pricing (fun _ => 0) ["2024-06-01"] []
    [] [] 100 defaultStorageCosts .mismatchedLength rfl⟩

/-- Witness for C2: a concrete accepted one-leg contract at constant
estimated price 2; the theorem's accounting identities evaluate to
purchase cost 100 and transport cost 50000. -/
theorem contract_value_accounting_witness :
    ∃ r : ContractResult,
      (price_storage_contract (fun _ => 2) ["2024-06-01"] ["2024-09-01"]
          [(50 : ℚ)] [(50 : ℚ)] 100 defaultStorageCosts).fst = .ok r ∧
      r.contract_value = r.total_sale_revenue - r.total_purchase_cost
        - r.total_injection_cost - r.total_withdrawal_cost
        - r.total_transport_cost - r.total_storage_cost ∧
      r.total_purchase_cost = 100 ∧
      r.total_transport_cost = 50000 := by
  have hpi : parseAll ["2024-06-01"] = some [⟨2024, 6, 1⟩] := by decide
  have hpw : parseAll ["2024-09-01"] = some [⟨2024, 9, 1⟩] := by decide
  have hval : validateAndParse ["2024-06-01"] ["2024-09-01"]
      [(50 : ℚ)] [(50 : ℚ)] = .ok ([⟨2024, 6, 1⟩], [⟨2024, 9, 1⟩]) := by
    simp only [validateAndParse, hpi, hpw]
    norm_num [ratAbs]
  have hsim : runSim 100 0 (sortOps (mkOps [⟨2024, 6, 1⟩] [⟨2024, 9, 1⟩]
      [(50 : ℚ)] [(50 : ℚ)])) = .ok 0 := by
    with_unfolding_all decide
  have hok : (price_storage_contract (fun _ => 2) ["2024-06-01"] ["2024-09-01"]
      [(50 : ℚ)] [(50 : ℚ)] 100 defaultStorageCosts).fst
      = .ok (mkResult (fun _ => 2) ["2024-06-01"] ["2024-09-01"]
          [(50 : ℚ)] [(50 : ℚ)] [⟨2024, 6, 1⟩] [⟨2024, 9, 1⟩]
          defaultStorageCosts) := by
    simp only [price_storage_contract, hval, hsim]
    norm_num [maxD, minD, dateLt]
  have hmain := contract_value_accounting (fun _ => 2) ["2024-06-01"]
    ["2024-09-01"] [(50 : ℚ)] [(50 : ℚ)] 100 defaultStorageCosts
    [⟨2024, 6, 1⟩] [⟨2024, 9, 1⟩] _ hpi hpw hok
  refine ⟨_, hok, hmain.1, ?_, ?_⟩
  · rw [hmain.2.1]
    norm_num
  · rw [hmain.2.2.2.2.2]
    norm_num [defaultStorageCosts]

theorem mkOps_pos {injP wdP : List Date} {injV wdV : List ℚ}
    (hI : ∀ v ∈ injV, 0 < v) (hW : ∀ v ∈ wdV, 0 < v) :
    ∀ op ∈ mkOps injP wdP injV wdV, 0 < op.volume := by
  intro op hop
  cases hk : op.kind with
  | injection => exact hI _ (mkOps_mem_inj hop hk).2
  | withdrawal => exact hW _ (mkOps_mem_wd hop hk).2

/-- Occupancy after the first `k` operations, starting from `occ0`. -/
def occFrom (occ0 : ℚ) (S : List Op) (k : ℕ) : ℚ :=
  (S.take k).foldl occStep occ0

theorem occFrom_zero (occ0 : ℚ) (S : List Op) : occFrom occ0 S 0 = occ0 := rfl

theorem occFrom_nil (occ0 : ℚ) (k : ℕ) : occFrom occ0 [] k = occ0 := by
  simp [occFrom]

theorem occFrom_cons_succ (occ0 : ℚ) (op : Op) (S : List Op) (k : ℕ) :
    occFrom occ0 (op :: S) (k + 1) = occFrom (occStep occ0 op) S k := by
  simp [occFrom, List.take_succ_cons]

theorem occAfter_eq_occFrom (S : List Op) (k : ℕ) :
    occAfter S k = occFrom 0 S k := rfl

/-- The three possible outcomes of the capacity replay, with the occupancy
path observation in each: either every prefix occupancy stays in
`[0, cap]` and the replay succeeds, or the replay stops at the first
prefix that overshoots `cap` (`capacityExceeded`), or at the first prefix
that goes negative (`insufficientStorage`). -/
theorem runSim_trichotomy (cap : ℚ) :
    ∀ (S : List Op) (occ0 : ℚ),
      (∀ op ∈ S, 0 < op.volume) → 0 ≤ occ0 → occ0 ≤ cap →
      ((∃ f, runSim cap occ0 S = .ok f) ∧
        ∀ k, 0 ≤ occFrom occ0 S k ∧ occFrom occ0 S k ≤ cap)
      ∨ (runSim cap occ0 S = .error .capacityExceeded ∧
          ∃ k, k ≤ S.length ∧ cap < occFrom occ0 S k ∧
            ∀ j < k, 0 ≤ occFrom occ0 S j ∧ occFrom occ0 S j ≤ cap)
      ∨ (runSim cap occ0 S = .error .insufficientStorage ∧
          ∃ k, k ≤ S.length ∧ occFrom occ0 S k < 0 ∧
            ∀ j < k, 0 ≤ occFrom occ0 S j ∧ occFrom occ0 S j ≤ cap) := by
  intro S
  induction S with
  | nil =>
    intro occ0 hpos h0 hc
    left
    refine ⟨⟨occ0, rfl⟩, fun k => ?_⟩
    rw [occFrom_nil]
    exact ⟨h0, hc⟩
  | cons op rest ih =>
    intro occ0 hpos h0 hc
    have hvol : 0 < op.volume := hpos op (by simp)
    have hposR : ∀ o ∈ rest, 0 < o.volume := fun o ho => hpos o (by simp [ho])
    cases hk : op.kind with
    | injection =>
      have hstep : occStep occ0 op = occ0 + op.volume := by
        simp [occStep, hk]
      by_cases hover : occ0 + op.volume > cap
      · right; left
        constructor
        · unfold runSim
          simp only [hk]
          rw [if_pos hover]
        · refine ⟨1, by simp, ?_, ?_⟩
          · rw [show (1 : ℕ) = 0 + 1 from rfl, occFrom_cons_succ, occFrom_zero,
              hstep]
            exact hover
          · intro j hj
            interval_cases j
            rw [occFrom_zero]
            exact ⟨h0, hc⟩
      · have hle : occ0 + op.volume ≤ cap := not_lt.mp hover
        have h0' : 0 ≤ occ0 + op.volume := by linarith
        rcases ih (occ0 + op.volume) hposR h0' hle with
          ⟨⟨f, hf⟩, hb⟩ | ⟨hrs, k, hkle, hkgt, hpre⟩ | ⟨hrs, k, hkle, hklt, hpre⟩
        · left
          refine ⟨⟨f, by
            unfold runSim; simp only [hk]; rw [if_neg hover]; exact hf⟩, fun k => ?_⟩
          cases k with
          | zero => rw [occFrom_zero]; exact ⟨h0, hc⟩
          | succ k => rw [occFrom_cons_succ, hstep]; exact hb k
        · right; left
          refine ⟨by
            unfold runSim; simp only [hk]; rw [if_neg hover]; exact hrs,
            k + 1, by simp; omega, ?_, ?_⟩
          · rw [occFrom_cons_succ, hstep]; exact hkgt
          · intro j hj
            cases j with
            | zero => rw [occFrom_zero]; exact ⟨h0, hc⟩
            | succ j =>
              rw [occFrom_cons_succ, hstep]
              exact hpre j (by omega)
        · right; right
          refine ⟨by
            unfold runSim; simp only [hk]; rw [if_neg hover]; exact hrs,
            k + 1, by simp; omega, ?_, ?_⟩
          · rw [occFrom_cons_succ, hstep]; exact hklt
          · intro j hj
            cases j with
            | zero => rw [occFrom_zero]; exact ⟨h0, hc⟩
            | succ j =>
              rw [occFrom_cons_succ, hstep]
              exact hpre j (by omega)
    | withdrawal =>
      have hstep : occStep occ0 op = occ0 - op.volume := by
        simp [occStep, hk]
      by_cases hneg : occ0 - op.volume < 0
      · right; right
        constructor
        · unfold runSim
          simp only [hk]
          rw [if_pos hneg]
        · refine ⟨1, by simp, ?_, ?_⟩
          · rw [show (1 : ℕ) = 0 + 1 from rfl, occFrom_cons_succ, occFrom_zero,
              hstep]
            exact hneg
          · intro j hj
            interval_cases j
            rw [occFrom_zero]
            exact ⟨h0, hc⟩
      · have h0' : 0 ≤ occ0 - op.volume := not_lt.mp hneg
        have hle : occ0 - op.volume ≤ cap := by linarith
        rcases ih (occ0 - op.volume) hposR h0' hle with
          ⟨⟨f, hf⟩, hb⟩ | ⟨hrs, k, hkle, hkgt, hpre⟩ | ⟨hrs, k, hkle, hklt, hpre⟩
        · left
          refine ⟨⟨f, by
            unfold runSim; simp only [hk]; rw [if_neg hneg]; exact hf⟩, fun k => ?_⟩
          cases k with
          | zero => rw [occFrom_zero]; exact ⟨h0, hc⟩
          | succ k => rw [occFrom_cons_succ, hstep]; exact hb k
        · right; left
          refine ⟨by
            unfold runSim; simp only [hk]; rw [if_neg hneg]; exact hrs,
            k + 1, by simp; omega, ?_, ?_⟩
          · rw [occFrom_cons_succ, hstep]; exact hkgt
          · intro j hj
            cases j with
            | zero => rw [occFrom_zero]; exact ⟨h0, hc⟩
            | succ j =>
              rw [occFrom_cons_succ, hstep]
              exact hpre j (by omega)
        · right; right
          refine ⟨by
            unfold runSim; simp only [hk]; rw [if_neg hneg]; exact hrs,
            k + 1, by simp; omega, ?_, ?_⟩
          · rw [occFrom_cons_succ, hstep]; exact hklt
          · intro j hj
            cases j with
            | zero => rw [occFrom_zero]; exact ⟨h0, hc⟩
            | succ j =>
              rw [occFrom_cons_succ, hstep]
              exact hpre j (by omega)

theorem psc_error_of_sim_error {gp : Date → ℚ} {injD wdD : List String}
    {injV wdV : List ℚ} {cap : ℚ} {costs : StorageCosts}
    {injP wdP : List Date} {e : PSCError}
    (hval : validateAndParse injD wdD injV wdV = .ok (injP, wdP))
    (hsimE : runSim cap 0 (sortOps (mkOps injP wdP injV wdV)) = .error e) :
    (price_storage_contract gp injD wdD injV wdV cap costs).fst = .error e := by
  unfold price_storage_contract
  simp only [hval, hsimE]

theorem psc_sim_of_error {gp : Date → ℚ} {injD wdD : List String}
    {injV wdV : List ℚ} {cap : ℚ} {costs : StorageCosts}
    {injP wdP : List Date} {e : PSCError}
    (hval : validateAndParse injD wdD injV wdV = .ok (injP, wdP))
    (h : (price_storage_contract gp injD wdD injV wdV cap costs).fst = .error e)
    (hne : e ≠ .invalidScheduleOrder) :
    runSim cap 0 (sortOps (mkOps injP wdP injV wdV)) = .error e := by
  unfold price_storage_contract at h
  simp only [hval] at h
  cases hsim : runSim cap 0 (sortOps (mkOps injP wdP injV wdV)) with
  | error e' =>
    simp only [hsim] at h
    simp only [Except.error.injEq] at h
    rw [h]
  | ok fin =>
    simp only [hsim] at h
    by_cases hord : dateLt (maxD wdP) (minD injP)
    · rw [if_pos hord] at h
      simp only [Except.error.injEq] at h
      exact absurd h.symm hne
    · rw [if_neg hord] at h
      exact absurd h (by simp)

theorem psc_ok_sim {gp : Date → ℚ} {injD wdD : List String}
    {injV wdV : List ℚ} {cap : ℚ} {costs : StorageCosts}
    {injP wdP : List Date} {r : ContractResult}
    (hval : validateAndParse injD wdD injV wdV = .ok (injP, wdP))
    (h : (price_storage_contract gp injD wdD injV wdV cap costs).fst = .ok r) :
    ∃ fin, runSim cap 0 (sortOps (mkOps injP wdP injV wdV)) = .ok fin := by
  obtain ⟨injP0, wdP0, fin, hval0, hsim0, _, _⟩ := psc_ok_inv h
  rw [hval0] at hval
  have hpr := (Except.ok.injEq _ _).mp hval
  rw [Prod.mk.injEq] at hpr
  obtain ⟨h1, h2⟩ := hpr
  rw [h1, h2] at hsim0
  exact ⟨fin, hsim0⟩

/-- C3.  For every call that passes validation steps 1-6 (with a
non-negative capacity): an accepted call's simulated occupancy — starting
at 0 over the date-sorted merged operation list — stays in
`[0, max_storage_capacity]` after every operation; the call fails with
`CapacityExceededError` exactly when the first occupancy-bound violation
overshoots the capacity, and with `InsufficientStorageError` exactly when
the first violation goes negative. -/
theorem occupancy_invariant_and_capacity_errors
    (gp : Date → ℚ) (injD wdD : List String) (injV wdV : List ℚ)
    (cap : ℚ) (costs : StorageCosts) (injP wdP : List Date)
    (hval : validateAndParse injD wdD injV wdV = .ok (injP, wdP))
    (hcap : 0 ≤ cap) :
    (∀ r, (price_storage_contract gp injD wdD injV wdV cap costs).fst = .ok r →
      ∀ k, 0 ≤ occAfter (sortOps (mkOps injP wdP injV wdV)) k ∧
        occAfter (sortOps (mkOps injP wdP injV wdV)) k ≤ cap) ∧
    ((price_storage_contract gp injD wdD injV wdV cap costs).fst
        = .error .capacityExceeded ↔
      ∃ k, k ≤ (sortOps (mkOps injP wdP injV wdV)).length ∧
        cap < occAfter (sortOps (mkOps injP wdP injV wdV)) k ∧
        ∀ j < k, 0 ≤ occAfter (sortOps (mkOps injP wdP injV wdV)) j ∧
          occAfter (sortOps (mkOps injP wdP injV wdV)) j ≤ cap) ∧
    ((price_storage_contract gp injD wdD injV wdV cap costs).fst
        = .error .insufficientStorage ↔
      ∃ k, k ≤ (sortOps (mkOps injP wdP injV wdV)).length ∧
        occAfter (sortOps (mkOps injP wdP injV wdV)) k < 0 ∧
        ∀ j < k, 0 ≤ occAfter (sortOps (mkOps injP wdP injV wdV)) j ∧
          occAfter (sortOps (mkOps injP wdP injV wdV)) j ≤ cap) := by
  obtain ⟨hl1, hl2, hne1, hne2, hpi, hpw, hposI, hposW, htol⟩ :=
    validateAndParse_ok hval
  have hpos : ∀ op ∈ sortOps (mkOps injP wdP injV wdV), 0 < op.volume :=
    fun op hop =>
      mkOps_pos hposI hposW op ((sortOps_perm _).mem_iff.mp hop)
  simp only [occAfter_eq_occFrom]
  rcases runSim_trichotomy cap (sortOps (mkOps injP wdP injV wdV)) 0 hpos
      (le_refl 0) hcap with
    ⟨⟨f, hsim⟩, hb⟩ | ⟨hsim, k, hkle, hkgt, hpre⟩ | ⟨hsim, k, hkle, hklt, hpre⟩
  · refine ⟨fun r _ k => hb k, ?_, ?_⟩
    · constructor
      · intro habs
        have := psc_sim_of_error hval habs (by decide)
        rw [hsim] at this
        exact absurd this (by simp)
      · rintro ⟨k, _, hkgt, _⟩
        exact absurd (hb k).2 (not_le.mpr hkgt)
    · constructor
      · intro habs
        have := psc_sim_of_error hval habs (by decide)
        rw [hsim] at this
        exact absurd this (by simp)
      · rintro ⟨k, _, hklt, _⟩
        exact absurd (hb k).1 (not_le.mpr hklt)
  · refine ⟨?_, ?_, ?_⟩
    · intro r hok
      obtain ⟨fin, hsim'⟩ := psc_ok_sim hval hok
      rw [hsim] at hsim'
      exact absurd hsim' (by simp)
    · exact ⟨fun _ => ⟨k, hkle, hkgt, hpre⟩,
        fun _ => psc_error_of_sim_error hval hsim⟩
    · constructor
      · intro habs
        have := psc_sim_of_error hval habs (by decide)
        rw [hsim] at this
        simp only [Except.error.injEq] at this
        exact absurd this (by decide)
      · rintro ⟨k', _, hk'lt, hpre'⟩
        exfalso
        rcases lt_trichotomy k k' with h | h | h
        · exact absurd (hpre' k h).2 (not_le.mpr hkgt)
        · rw [h] at hkgt
          linarith
        · exact absurd (hpre k' h).1 (not_le.mpr hk'lt)
  · refine ⟨?_, ?_, ?_⟩
    · intro r hok
      obtain ⟨fin, hsim'⟩ := psc_ok_sim hval hok
      rw [hsim] at hsim'
      exact absurd hsim' (by simp)
    · constructor
      · intro habs
        have := psc_sim_of_error hval habs (by decide)
        rw [hsim] at this
        simp only [Except.error.injEq] at this
        exact absurd this (by decide)
      · rintro ⟨k', _, hk'gt, hpre'⟩
        exfalso
        rcases lt_trichotomy k k' with h | h | h
        · exact absurd (hpre' k h).1 (not_le.mpr hklt)
        · rw [h] at hklt
          linarith
        · exact absurd (hpre k' h).2 (not_le.mpr hk'gt)
    · exact ⟨fun _ => ⟨k, hkle, hklt, hpre⟩,
        fun _ => psc_error_of_sim_error hval hsim⟩

/-- Witness for C3 at the spec's own example: injecting 6,000,000 MMBtu
against a capacity of 5,000,000 raises `CapacityExceededError`. -/
theorem occupancy_invariant_and_capacity_errors_witness :
    (price_storage_contract (fun _ => 2) ["2024-06-01"] ["2024-09-01"]
        [(6000000 : ℚ)] [(6000000 : ℚ)] 5000000 defaultStorageCosts).fst
      = .error .capacityExceeded := by
  have hpi : parseAll ["2024-06-01"] = some [⟨2024, 6, 1⟩] := by decide
  have hpw : parseAll ["2024-09-01"] = some [⟨2024, 9, 1⟩] := by decide
  have hval : validateAndParse ["2024-06-01"] ["2024-09-01"]
      [(6000000 : ℚ)] [(6000000 : ℚ)]
      = .ok ([⟨2024, 6, 1⟩], [⟨2024, 9, 1⟩]) := by
    simp only [validateAndParse, hpi, hpw]
    norm_num [ratAbs]
  have hmain := occupancy_invariant_and_capacity_errors (fun _ => 2)
    ["2024-06-01"] ["2024-09-01"] [(6000000 : ℚ)] [(6000000 : ℚ)]
    5000000 defaultStorageCosts [⟨2024, 6, 1⟩] [⟨2024, 9, 1⟩] hval
    (by norm_num)
  apply hmain.2.1.mpr
  refine ⟨1, ?_, ?_, ?_⟩
  · with_unfolding_all decide
  · with_unfolding_all decide
  · intro j hj
    interval_cases j
    rw [occAfter_eq_occFrom, occFrom_zero]
    norm_num

theorem runSim_error_kind {cap : ℚ} {e : PSCError} :
    ∀ {occ : ℚ} {S : List Op}, runSim cap occ S = .error e →
      e = .capacityExceeded ∨ e = .insufficientStorage := by
  intro occ S
  induction S generalizing occ with
  | nil =>
    intro h
    exact absurd h (by simp [runSim])
  | cons op rest ih =>
    intro h
    unfold runSim at h
    cases hk : op.kind with
    | injection =>
      simp only [hk] at h
      split at h
      · left
        simp only [Except.error.injEq] at h
        exact h.symm
      · exact ih h
    | withdrawal =>
      simp only [hk] at h
      split at h
      · right
        simp only [Except.error.injEq] at h
        exact h.symm
      · exact ih h

theorem validateAndParse_eval {injD wdD : List String} {injV wdV : List ℚ}
    {injP wdP : List Date}
    (hl1 : injD.length = injV.length) (hl2 : wdD.length = wdV.length)
    (hne1 : injD ≠ []) (hne2 : wdD ≠ [])
    (hpi : parseAll injD = some injP) (hpw : parseAll wdD = some wdP)
    (hposI : ∀ v ∈ injV, 0 < v) (hposW : ∀ v ∈ wdV, 0 < v) :
    validateAndParse injD wdD injV wdV
      = if ratAbs (injV.sum - wdV.sum) > 1 / 1000000 then
          .error .volumeMismatch
        else .ok (injP, wdP) := by
  have hp1 : 0 < injD.length := List.length_pos.mpr hne1
  have hp2 : 0 < wdD.length := List.length_pos.mpr hne2
  have hI : ¬ ∃ v ∈ injV, v ≤ 0 := by
    rintro ⟨v, hv, hle⟩
    exact absurd (hposI v hv) (by linarith)
  have hW : ¬ ∃ v ∈ wdV, v ≤ 0 := by
    rintro ⟨v, hv, hle⟩
    exact absurd (hposW v hv) (by linarith)
  unfold validateAndParse
  rw [if_neg (by omega), if_neg (by omega), if_neg (by omega), hpi, hpw]
  dsimp only
  rw [if_neg hI, if_neg hW]

/-- C4.  For inputs passing the earlier validation steps, the call fails
with `VolumeMismatchError` exactly when the absolute difference between
total injected and total withdrawn volume exceeds `1e-6` (arithmetic
modelled over exact rationals). -/
theorem volume_mismatch_tolerance
    (gp : Date → ℚ) (injD wdD : List String) (injV wdV : List ℚ)
    (cap : ℚ) (costs : StorageCosts) (injP wdP : List Date)
    (hl1 : injD.length = injV.length) (hl2 : wdD.length = wdV.length)
    (hne1 : injD ≠ []) (hne2 : wdD ≠ [])
    (hpi : parseAll injD = some injP) (hpw : parseAll wdD = some wdP)
    (hposI : ∀ v ∈ injV, 0 < v) (hposW : ∀ v ∈ wdV, 0 < v) :
    (price_storage_contract gp injD wdD injV wdV cap costs).fst
        = .error .volumeMismatch
      ↔ ratAbs (injV.sum - wdV.sum) > 1 / 1000000 := by
  have hval := validateAndParse_eval hl1 hl2 hne1 hne2 hpi hpw hposI hposW
  by_cases htol : ratAbs (injV.sum - wdV.sum) > 1 / 1000000
  · rw [if_pos htol] at hval
    refine ⟨fun _ => htol, fun _ => ?_⟩
    unfold price_storage_contract
    simp only [hval]
  · rw [if_neg htol] at hval
    refine ⟨fun habs => ?_, fun htol' => absurd htol' htol⟩
    have hsimE := psc_sim_of_error hval habs (by decide)
    rcases runSim_error_kind hsimE with h | h <;> exact absurd h (by decide)

/-- Witness for C4 at the spec's example: withdrawals summing to
`99.999999` against injections summing to `100` are not rejected for
volume mismatch, while withdrawals summing to `99.9` are. -/
theorem volume_mismatch_tolerance_witness :
    (price_storage_contract (fun _ => 2) ["2024-06-01"] ["2024-09-01"]
        [(100 : ℚ)] [(99999999 / 1000000 : ℚ)] 1000 defaultStorageCosts).fst
      ≠ .error .volumeMismatch ∧
    (price_storage_contract (fun _ => 2) ["2024-06-01"] ["2024-09-01"]
        [(100 : ℚ)] [(999 / 10 : ℚ)] 1000 defaultStorageCosts).fst
      = .error .volumeMismatch := by
  constructor
  · intro habs
    have h := (volume_mismatch_tolerance (fun _ => 2) ["2024-06-01"]
      ["2024-09-01"] [(100 : ℚ)] [(99999999 / 1000000 : ℚ)] 1000
      defaultStorageCosts [⟨2024, 6, 1⟩] [⟨2024, 9, 1⟩] rfl rfl
      (by decide) (by decide) (by decide) (by decide)
      (by intro v hv; simp only [List.mem_singleton] at hv; rw [hv]; norm_num)
      (by intro v hv; simp only [List.mem_singleton] at hv; rw [hv]; norm_num)).mp
      habs
    norm_num [ratAbs] at h
  · exact (volume_mismatch_tolerance (fun _ => 2) ["2024-06-01"]
      ["2024-09-01"] [(100 : ℚ)] [(999 / 10 : ℚ)] 1000
      defaultStorageCosts [⟨2024, 6, 1⟩] [⟨2024, 9, 1⟩] rfl rfl
      (by decide) (by decide) (by decide) (by decide)
      (by intro v hv; simp only [List.mem_singleton] at hv; rw [hv]; norm_num)
      (by intro v hv; simp only [List.mem_singleton] at hv; rw [hv]; norm_num)).mpr
      (by norm_num [ratAbs])

theorem foldl_dminStep_mem (l : List Date) (a : Date) :
    l.foldl dminStep a = a ∨ l.foldl dminStep a ∈ l := by
  induction l generalizing a with
  | nil => left; rfl
  | cons x xs ih =>
    rcases ih (dminStep a x) with h | h
    · show xs.foldl dminStep (dminStep a x) = a ∨
        xs.foldl dminStep (dminStep a x) ∈ x :: xs
      rw [h]
      unfold dminStep
      split
      · right; exact List.mem_cons_self x xs
      · left; rfl
    · right
      exact List.mem_cons_of_mem x h

theorem foldl_dmaxStep_mem (l : List Date) (a : Date) :
    l.foldl dmaxStep a = a ∨ l.foldl dmaxStep a ∈ l := by
  induction l generalizing a with
  | nil => left; rfl
  | cons x xs ih =>
    rcases ih (dmaxStep a x) with h | h
    · show xs.foldl dmaxStep (dmaxStep a x) = a ∨
        xs.foldl dmaxStep (dmaxStep a x) ∈ x :: xs
      rw [h]
      unfold dmaxStep
      split
      · right; exact List.mem_cons_self x xs
      · left; rfl
    · right
      exact List.mem_cons_of_mem x h

theorem minD_mem {l : List Date} (h : l ≠ []) : minD l ∈ l := by
  cases l with
  | nil => exact absurd rfl h
  | cons x xs =>
    rcases foldl_dminStep_mem xs x with h1 | h1
    · rw [show minD (x :: xs) = xs.foldl dminStep x from rfl, h1]
      exact List.mem_cons_self x xs
    · exact List.mem_cons_of_mem x h1

theorem maxD_mem {l : List Date} (h : l ≠ []) : maxD l ∈ l := by
  cases l with
  | nil => exact absurd rfl h
  | cons x xs =>
    rcases foldl_dmaxStep_mem xs x with h1 | h1
    · rw [show maxD (x :: xs) = xs.foldl dmaxStep x from rfl, h1]
      exact List.mem_cons_self x xs
    · exact List.mem_cons_of_mem x h1

theorem monthsDiff_nonneg {a b : Date} (hle : dateLe a b)
    (ha : 1 ≤ a.m ∧ a.m ≤ 12) (hb : 1 ≤ b.m ∧ b.m ≤ 12) :
    0 ≤ monthsDiff a b := by
  unfold dateLe at hle
  unfold monthsDiff
  omega

/-- C5.  On every accepted contract, `duration_months` is the month
difference between the first injection date and the last withdrawal date,
floored at a minimum of one month (hence always at least 1), and
`storage_cost = duration_months * monthly_storage_fee`. -/
theorem duration_months_and_storage_cost
    (gp : Date → ℚ) (injD wdD : List String) (injV wdV : List ℚ)
    (cap : ℚ) (costs : StorageCosts) (injP wdP : List Date) (r : ContractResult)
    (hpi : parseAll injD = some injP) (hpw : parseAll wdD = some wdP)
    (hok : (price_storage_contract gp injD wdD injV wdV cap costs).fst = .ok r) :
    r.duration_months = max 1 (monthsDiff (minD injP) (maxD wdP)) ∧
    1 ≤ r.duration_months ∧
    r.total_storage_cost = (r.duration_months : ℚ) * costs.monthly_storage_fee := by
  obtain ⟨injP0, wdP0, fin, hval, hsim, hord, hr⟩ := psc_ok_inv hok
  obtain ⟨hl1, hl2, hne1, hne2, hpi0, hpw0, hposI, hposW, htol⟩ :=
    validateAndParse_ok hval
  have hinj : injP0 = injP := by
    rw [hpi0] at hpi
    exact (Option.some.injEq _ _).mp hpi
  have hwd : wdP0 = wdP := by
    rw [hpw0] at hpw
    exact (Option.some.injEq _ _).mp hpw
  rw [hinj] at hr hpi0
  rw [hwd] at hr hpw0
  rw [hinj, hwd] at hord
  subst hr
  have hneI : injP ≠ [] := by
    intro hx
    apply hne1
    have hli := parseAll_length hpi0
    rw [hx] at hli
    exact List.eq_nil_of_length_eq_zero hli.symm
  have hneW : wdP ≠ [] := by
    intro hx
    apply hne2
    have hlw := parseAll_length hpw0
    rw [hx] at hlw
    exact List.eq_nil_of_length_eq_zero hlw.symm
  have hmMin : 1 ≤ (minD injP).m ∧ (minD injP).m ≤ 12 := by
    obtain ⟨s, _, hps⟩ := parseAll_mem hpi0 (minD injP) (minD_mem hneI)
    exact parseDate_month_range hps
  have hmMax : 1 ≤ (maxD wdP).m ∧ (maxD wdP).m ≤ 12 := by
    obtain ⟨s, _, hps⟩ := parseAll_mem hpw0 (maxD wdP) (maxD_mem hneW)
    exact parseDate_month_range hps
  have hle : dateLe (minD injP) (maxD wdP) := not_dateLt_iff.mp hord
  have hd0 : 0 ≤ monthsDiff (minD injP) (maxD wdP) :=
    monthsDiff_nonneg hle hmMin hmMax
  have hdur : (if monthsDiff (minD injP) (maxD wdP) = 0 then 1
      else monthsDiff (minD injP) (maxD wdP))
      = max 1 (monthsDiff (minD injP) (maxD wdP)) := by
    by_cases h : monthsDiff (minD injP) (maxD wdP) = 0
    · rw [if_pos h, h]
      rfl
    · rw [if_neg h]
      omega
  refine ⟨hdur, ?_, rfl⟩
  rw [show (mkResult gp injD wdD injV wdV injP wdP costs).duration_months
      = (if monthsDiff (minD injP) (maxD wdP) = 0 then 1
        else monthsDiff (minD injP) (maxD wdP)) from rfl, hdur]
  exact le_max_left 1 _

/-- Witness for C5 at the spec's example: one injection on 2024-06-01 and
one withdrawal on 2024-09-01 with default costs gives `duration_months = 3`
and `storage_cost = 300000`. -/
theorem duration_months_and_storage_cost_witness :
    ∃ r : ContractResult,
      (price_storage_contract (fun _ => 1) ["2024-06-01"] ["2024-09-01"]
          [(1000000 : ℚ)] [(1000000 : ℚ)] 2000000 defaultStorageCosts).fst
        = .ok r ∧
      r.duration_months = 3 ∧
      r.total_storage_cost = 300000 := by
  have hpi : parseAll ["2024-06-01"] = some [⟨2024, 6, 1⟩] := by decide
  have hpw : parseAll ["2024-09-01"] = some [⟨2024, 9, 1⟩] := by decide
  have hval : validateAndParse ["2024-06-01"] ["2024-09-01"]
      [(1000000 : ℚ)] [(1000000 : ℚ)]
      = .ok ([⟨2024, 6, 1⟩], [⟨2024, 9, 1⟩]) := by
    simp only [validateAndParse, hpi, hpw]
    norm_num [ratAbs]
  have hsim : runSim 2000000 0 (sortOps (mkOps [⟨2024, 6, 1⟩] [⟨2024, 9, 1⟩]
      [(1000000 : ℚ)] [(1000000 : ℚ)])) = .ok 0 := by
    with_unfolding_all decide
  have hok : (price_storage_contract (fun _ => 1) ["2024-06-01"]
      ["2024-09-01"] [(1000000 : ℚ)] [(1000000 : ℚ)] 2000000
      defaultStorageCosts).fst
      = .ok (mkResult (fun _ => 1) ["2024-06-01"] ["2024-09-01"]
          [(1000000 : ℚ)] [(1000000 : ℚ)] [⟨2024, 6, 1⟩] [⟨2024, 9, 1⟩]
          defaultStorageCosts) := by
    simp only [price_storage_contract, hval, hsim]
    norm_num [maxD, minD, dateLt]
  have hmain := duration_months_and_storage_cost (fun _ => 1) ["2024-06-01"]
    ["2024-09-01"] [(1000000 : ℚ)] [(1000000 : ℚ)] 2000000
    defaultStorageCosts [⟨2024, 6, 1⟩] [⟨2024, 9, 1⟩] _ hpi hpw hok
  have hdur : (mkResult (fun _ => 1) ["2024-06-01"] ["2024-09-01"]
      [(1000000 : ℚ)] [(1000000 : ℚ)] [⟨2024, 6, 1⟩] [⟨2024, 9, 1⟩]
      defaultStorageCosts).duration_months = 3 := by
    rw [hmain.1]
    norm_num [monthsDiff, minD, maxD]
  refine ⟨_, hok, hdur, ?_⟩
  rw [hmain.2.2, hdur]
  norm_num [defaultStorageCosts]

/-- One historical (date, price) data point of the CSV. -/
structure Observation where
  date : Date
  price : ℚ
deriving DecidableEq, Repr

/-- The four harmonic terms `sin(2π d/365.25)`, `cos(2π d/365.25)`,
`sin(4π d/365.25)`, `cos(4π d/365.25)` as functions of the day of year.
They are transcendental, so this development abstracts them as a
parameter; every theorem holds for an arbitrary basis, in particular for
the source's. -/
structure SeasonalBasis where
  s1 : ℕ → ℚ
  c1 : ℕ → ℚ
  s2 : ℕ → ℚ
  c2 : ℕ → ℚ

/-- The 6-entry feature row
`[time_index, sin1, cos1, sin2, cos2, month]` shared by fitting and
estimation. -/
def featureVec (B : SeasonalBasis) (t : ℤ) (doy m : ℕ) : List ℚ :=
  [(t : ℚ), B.s1 doy, B.c1 doy, B.s2 doy, B.c2 doy, (m : ℚ)]

/-- The fitted estimator: regression coefficients and intercept (as
returned by the least-squares routine), the last observation's date as
reference date and its position as reference time index.  The source
passes `model`, `reference_date` and `last_time_index` as three separate
arguments; they are bundled here. -/
structure FittedModel where
  coef : List ℚ
  intercept : ℚ
  reference_date : Date
  last_time_index : ℕ
deriving DecidableEq, Repr

def dotProd (c f : List ℚ) : ℚ :=
  ((c.zip f).map (fun p => p.1 * p.2)).sum

/-- `model.predict(features)[0]`: the fitted linear form
`dot(coefficients, features) + intercept`. -/
def predictRaw (M : FittedModel) (f : List ℚ) : ℚ :=
  dotProd M.coef f + M.intercept

/-- The design matrix of `build_price_model`: row `i` is the feature
vector of observation `i` with `TimeIndex = i`. -/
def designMatrix (B : SeasonalBasis) (obs : List Observation) :
    List (List ℚ) :=
  obs.enum.map (fun p => featureVec B (p.1 : ℤ) (dayOfYear p.2.date) p.2.date.m)

/-- Error raised on fitting.  The source has no explicit emptiness check:
on an empty observation sequence the external least-squares routine
itself raises (the spec names this `InvalidInputError`). -/
inductive FitError where
  | invalidInput
deriving DecidableEq, Repr

/-- `build_price_model`: fit the 6-feature linear model.  The
ordinary-least-squares solver of the external library is abstracted as
the parameter `ols`, mapping the design matrix and the target vector to
(coefficients, intercept); it fails exactly on an empty input, which is
modelled as the `.error` branch. -/
def build_price_model (B : SeasonalBasis)
    (ols : List (List ℚ) → List ℚ → List ℚ × ℚ)
    (obs : List Observation) : Except FitError FittedModel :=
  match obs.getLast? with
  | none => .error .invalidInput
  | some o =>
    .ok { coef := (ols (designMatrix B obs) (obs.map (·.price))).1
          intercept := (ols (designMatrix B obs) (obs.map (·.price))).2
          reference_date := o.date
          last_time_index := obs.length - 1 }

/-- `estimate_price` evaluated at an already-parsed target date:
`months_diff` from the reference date shifts the reference time index,
the day-of-year and month features come from the target date, and the raw
linear prediction is clamped at zero. -/
def estimate_price_at (B : SeasonalBasis) (M : FittedModel)
    (target : Date) : ℚ :=
  max 0 (predictRaw M (featureVec B
    ((M.last_time_index : ℤ) + monthsDiff M.reference_date target)
    (dayOfYear target) target.m))

/-- `estimate_price(date_str, model, reference_date, last_time_index)`:
parsing failures propagate (modelled as `none`); on a parseable date the
clamped prediction is returned. -/
def estimate_price (B : SeasonalBasis) (dateStr : String)
    (M : FittedModel) : Option ℚ :=
  (parseDate dateStr).map (estimate_price_at B M)

/-- C6.  On every parseable date, `estimate_price` returns
`max(0, prediction)` where the prediction is the fitted linear model
applied to that date's 6-feature vector; in particular the returned price
is never negative. -/
theorem estimate_price_clamped_nonneg (B : SeasonalBasis) (M : FittedModel)
    (s : String) (dt : Date) (hp : parseDate s = some dt) :
    estimate_price B s M = some (estimate_price_at B M dt) ∧
    estimate_price_at B M dt
      = max 0 (predictRaw M (featureVec B
          ((M.last_time_index : ℤ) + monthsDiff M.reference_date dt)
          (dayOfYear dt) dt.m)) ∧
    0 ≤ estimate_price_at B M dt :=
  ⟨by simp [estimate_price, hp], rfl, le_max_left 0 _⟩

/-- Witness for C6: a model whose raw prediction is the constant `-7`
still estimates price `0` on 2024-06-15. -/
theorem estimate_price_clamped_nonneg_witness :
    estimate_price ⟨fun _ => 0, fun _ => 0, fun _ => 0, fun _ => 0⟩
        "2024-06-15" ⟨[0, 0, 0, 0, 0, 0], -7, ⟨2024, 9, 30⟩, 11⟩
      = some (estimate_price_at
          ⟨fun _ => 0, fun _ => 0, fun _ => 0, fun _ => 0⟩
          ⟨[0, 0, 0, 0, 0, 0], -7, ⟨2024, 9, 30⟩, 11⟩ ⟨2024, 6, 15⟩) ∧
    0 ≤ estimate_price_at ⟨fun _ => 0, fun _ => 0, fun _ => 0, fun _ => 0⟩
        ⟨[0, 0, 0, 0, 0, 0], -7, ⟨2024, 9, 30⟩, 11⟩ ⟨2024, 6, 15⟩ ∧
    estimate_price_at ⟨fun _ => 0, fun _ => 0, fun _ => 0, fun _ => 0⟩
        ⟨[0, 0, 0, 0, 0, 0], -7, ⟨2024, 9, 30⟩, 11⟩ ⟨2024, 6, 15⟩ = 0 ∧
    predictRaw ⟨[0, 0, 0, 0, 0, 0], -7, ⟨2024, 9, 30⟩, 11⟩
        (featureVec ⟨fun _ => 0, fun _ => 0, fun _ => 0, fun _ => 0⟩
          ((11 : ℤ) + monthsDiff ⟨2024, 9, 30⟩ ⟨2024, 6, 15⟩)
          (dayOfYear ⟨2024, 6, 15⟩) 6) < 0 := by
  have h := estimate_price_clamped_nonneg
    ⟨fun _ => 0, fun _ => 0, fun _ => 0, fun _ => 0⟩
    ⟨[0, 0, 0, 0, 0, 0], -7, ⟨2024, 9, 30⟩, 11⟩
    "2024-06-15" ⟨2024, 6, 15⟩ (by decide)
  refine ⟨h.1, h.2.2, ?_, ?_⟩
  · norm_num [estimate_price_at, predictRaw, dotProd, featureVec]
  · norm_num [predictRaw, dotProd, featureVec]

/-- C7.  Fitting on an empty observation sequence fails with the
invalid-input error; on every non-empty sequence fitting succeeds and
returns a fitted estimator. -/
theorem build_price_model_empty_iff (B : SeasonalBasis)
    (ols : List (List ℚ) → List ℚ → List ℚ × ℚ) :
    build_price_model B ols [] = .error .invalidInput ∧
    ∀ obs : List Observation, obs ≠ [] →
      ∃ M, build_price_model B ols obs = .ok M := by
  refine ⟨rfl, fun obs hne => ?_⟩
  unfold build_price_model
  cases hlast : obs.getLast? with
  | none => exact absurd (List.getLast?_eq_none_iff.mp hlast) hne
  | some o => exact ⟨_, rfl⟩

/-- Witness for C7: fitting a one-observation sequence with a trivial
least-squares routine succeeds. -/
theorem build_price_model_empty_iff_witness :
    build_price_model ⟨fun _ => 0, fun _ => 0, fun _ => 0, fun _ => 0⟩
        (fun _ _ => ([0, 0, 0, 0, 0, 0], 0)) [] = .error .invalidInput ∧
    ∃ M, build_price_model ⟨fun _ => 0, fun _ => 0, fun _ => 0, fun _ => 0⟩
        (fun _ _ => ([0, 0, 0, 0, 0, 0], 0)) [⟨⟨2024, 6, 1⟩, 10⟩] = .ok M := by
  have h := build_price_model_empty_iff
    ⟨fun _ => 0, fun _ => 0, fun _ => 0, fun _ => 0⟩
    (fun _ _ => ([0, 0, 0, 0, 0, 0], 0))
  exact ⟨h.1, h.2 [⟨⟨2024, 6, 1⟩, 10⟩] (by simp)⟩

theorem designMatrix_getLast {B : SeasonalBasis} {obs : List Observation}
    {o : Observation} (hlast : obs.getLast? = some o) :
    (designMatrix B obs).getLast?
      = some (featureVec B ((obs.length - 1 : ℕ) : ℤ)
          (dayOfYear o.date) o.date.m) := by
  have hget : obs[obs.length - 1]? = some o := by
    rw [← List.getLast?_eq_getElem?]
    exact hlast
  rw [List.getLast?_eq_getElem?]
  unfold designMatrix
  rw [List.length_map, List.enum_length, List.getElem?_map,
    List.getElem?_enum, hget]
  rfl

/-- C8.  Estimating at the reference date reproduces the fitted value at
the last observation's own feature vector: the month difference is zero,
so the time index equals the reference time index, and day-of-year and
month coincide with the last observation's, whose feature row is the last
row of the design matrix; the result is that row's prediction up to the
zero clamp. -/
theorem estimate_at_reference_date (B : SeasonalBasis)
    (ols : List (List ℚ) → List ℚ → List ℚ × ℚ)
    (obs : List Observation) (M : FittedModel) (o : Observation)
    (hbuild : build_price_model B ols obs = .ok M)
    (hlast : obs.getLast? = some o) :
    monthsDiff M.reference_date M.reference_date = 0 ∧
    M.reference_date = o.date ∧
    M.last_time_index = obs.length - 1 ∧
    (designMatrix B obs).getLast?
      = some (featureVec B ((obs.length - 1 : ℕ) : ℤ)
          (dayOfYear o.date) o.date.m) ∧
    estimate_price_at B M M.reference_date
      = max 0 (predictRaw M (featureVec B ((obs.length - 1 : ℕ) : ℤ)
          (dayOfYear o.date) o.date.m)) := by
  unfold build_price_model at hbuild
  rw [hlast] at hbuild
  simp only [Except.ok.injEq] at hbuild
  have href : M.reference_date = o.date := by rw [← hbuild]
  have hidx : M.last_time_index = obs.length - 1 := by rw [← hbuild]
  have hmd : monthsDiff M.reference_date M.reference_date = 0 := by
    unfold monthsDiff
    omega
  refine ⟨hmd, href, hidx, designMatrix_getLast hlast, ?_⟩
  unfold estimate_price_at
  rw [hmd, add_zero, hidx, href]

/-- Witness for C8 on a concrete two-observation fit. -/
theorem estimate_at_reference_date_witness :
    estimate_price_at ⟨fun _ => 0, fun _ => 0, fun _ => 0, fun _ => 0⟩
        { coef := [(1 : ℚ)], intercept := 5,
          reference_date := ⟨2024, 7, 1⟩, last_time_index := 1 }
        ⟨2024, 7, 1⟩
      = max 0 (predictRaw
          { coef := [(1 : ℚ)], intercept := 5,
            reference_date := ⟨2024, 7, 1⟩, last_time_index := 1 }
          (featureVec ⟨fun _ => 0, fun _ => 0, fun _ => 0, fun _ => 0⟩
            ((([⟨⟨2024, 6, 1⟩, 10⟩, ⟨⟨2024, 7, 1⟩, 11⟩]
                : List Observation).length - 1 : ℕ) : ℤ)
            (dayOfYear ⟨2024, 7, 1⟩) 7)) := by
  have h := estimate_at_reference_date
    ⟨fun _ => 0, fun _ => 0, fun _ => 0, fun _ => 0⟩
    (fun _ _ => ([(1 : ℚ)], 5))
    [⟨⟨2024, 6, 1⟩, 10⟩, ⟨⟨2024, 7, 1⟩, 11⟩]
    { coef := [(1 : ℚ)], intercept := 5,
      reference_date := ⟨2024, 7, 1⟩, last_time_index := 1 }
    ⟨⟨2024, 7, 1⟩, 11⟩ (by rfl) (by rfl)
  exact h.2.2.2.2

/-- C10.  Same-date ties resolve injection-first: the merged list is built
with all injections before all withdrawals and sorted stably by date
alone, so every injection appears before every equal-dated withdrawal in
the replay order; consequently a same-day inject-then-withdraw round trip
on empty storage is accepted rather than failing with
`InsufficientStorageError`. -/
theorem same_date_injection_before_withdrawal :
    (∀ (injP wdP : List Date) (injV wdV : List ℚ) (a b : Op),
      a ∈ (injP.zip injV).map (fun p => (⟨p.1, .injection, p.2⟩ : Op)) →
      b ∈ (wdP.zip wdV).map (fun p => (⟨p.1, .withdrawal, p.2⟩ : Op)) →
      a.date = b.date →
      List.Sublist [a, b] (sortOps (mkOps injP wdP injV wdV))) ∧
    (∀ (gp : Date → ℚ) (v cap : ℚ) (costs : StorageCosts),
      0 < v → v ≤ cap →
      ∃ r, (price_storage_contract gp ["2024-06-01"] ["2024-06-01"] [v] [v]
        cap costs).fst = .ok r) := by
  constructor
  · intro injP wdP injV wdV a b ha hb hab
    have hsub : List.Sublist [a, b] (mkOps injP wdP injV wdV) := by
      unfold mkOps
      have h1 : List.Sublist [a]
          ((injP.zip injV).map (fun p => (⟨p.1, .injection, p.2⟩ : Op))) :=
        List.singleton_sublist.mpr ha
      have h2 : List.Sublist [b]
          ((wdP.zip wdV).map (fun p => (⟨p.1, .withdrawal, p.2⟩ : Op))) :=
        List.singleton_sublist.mpr hb
      exact List.Sublist.append h1 h2
    exact pair_sublist_sortOps hsub (by rw [hab]; exact dateLe_refl _)
  · intro gp v cap costs hv hcap
    have hpi : parseAll ["2024-06-01"] = some [⟨2024, 6, 1⟩] := by decide
    have hval : validateAndParse ["2024-06-01"] ["2024-06-01"] [v] [v]
        = .ok ([⟨2024, 6, 1⟩], [⟨2024, 6, 1⟩]) := by
      unfold validateAndParse
      rw [if_neg (by norm_num), if_neg (by norm_num), if_neg (by norm_num),
        hpi]
      dsimp only
      rw [if_neg ?hpos, if_neg ?hpos2, if_neg ?htol]
      case hpos =>
        rintro ⟨x, hx, hle⟩
        simp only [List.mem_singleton] at hx
        rw [hx] at hle
        linarith
      case hpos2 =>
        rintro ⟨x, hx, hle⟩
        simp only [List.mem_singleton] at hx
        rw [hx] at hle
        linarith
      case htol =>
        simp only [List.sum_cons, List.sum_nil]
        norm_num [ratAbs]
    have hsort : sortOps (mkOps [⟨2024, 6, 1⟩] [⟨2024, 6, 1⟩] [v] [v])
        = [⟨⟨2024, 6, 1⟩, .injection, v⟩, ⟨⟨2024, 6, 1⟩, .withdrawal, v⟩] := by
      show insertOp ⟨⟨2024, 6, 1⟩, .injection, v⟩
          [⟨⟨2024, 6, 1⟩, .withdrawal, v⟩] = _
      unfold insertOp
      rw [if_pos (by norm_num [dateLe])]
    have hsim : runSim cap 0 (sortOps (mkOps [⟨2024, 6, 1⟩] [⟨2024, 6, 1⟩]
        [v] [v])) = .ok (0 + v - v) := by
      rw [hsort]
      unfold runSim
      dsimp only
      rw [if_neg (by linarith)]
      unfold runSim
      dsimp only
      rw [if_neg (by linarith)]
      rfl
    refine ⟨mkResult gp ["2024-06-01"] ["2024-06-01"] [v] [v]
      [⟨2024, 6, 1⟩] [⟨2024, 6, 1⟩] costs, ?_⟩
    unfold price_storage_contract
    simp only [hval, hsim]
    rw [if_neg (by norm_num [maxD, minD, dateLt])]

/-- Witness for C10: the concrete same-day round trip of volume 5 — the
injection precedes the withdrawal in the sorted order and the contract is
accepted. -/
theorem same_date_injection_before_withdrawal_witness :
    List.Sublist
      [(⟨⟨2024, 6, 1⟩, .injection, (5 : ℚ)⟩ : Op),
        ⟨⟨2024, 6, 1⟩, .withdrawal, (5 : ℚ)⟩]
      (sortOps (mkOps [⟨2024, 6, 1⟩] [⟨2024, 6, 1⟩] [(5 : ℚ)] [(5 : ℚ)])) ∧
    ∃ r, (price_storage_contract (fun _ => 2) ["2024-06-01"] ["2024-06-01"]
        [(5 : ℚ)] [(5 : ℚ)] 100 defaultStorageCosts).fst = .ok r := by
  constructor
  · exact same_date_injection_before_withdrawal.1 [⟨2024, 6, 1⟩]
      [⟨2024, 6, 1⟩] [(5 : ℚ)] [(5 : ℚ)] _ _ (by simp) (by simp) rfl
  · exact same_date_injection_before_withdrawal.2 (fun _ => 2) 5 100
      defaultStorageCosts (by norm_num) (by norm_num)

theorem psc_value_congr
    (gp : Date → ℚ) (injD injD' wdD wdD' : List String) (injV wdV : List ℚ)
    (cap : ℚ) (costs : StorageCosts)
    (injP injP' wdP wdP' : List Date) (r : ContractResult)
    (hpi : parseAll injD = some injP) (hpi' : parseAll injD' = some injP')
    (hpw : parseAll wdD = some wdP) (hpw' : parseAll wdD' = some wdP')
    (hlenI : injD'.length = injD.length) (hlenW : wdD'.length = wdD.length)
    (hmin : minD injP' = minD injP) (hmax : maxD wdP' = maxD wdP)
    (hsumI : ((injP'.zip injV).map (fun p => p.2 * gp p.1)).sum
      = ((injP.zip injV).map (fun p => p.2 * gp p.1)).sum)
    (hsumW : ((wdP'.zip wdV).map (fun p => p.2 * gp p.1)).sum
      = ((wdP.zip wdV).map (fun p => p.2 * gp p.1)).sum)
    (hsort : sortOps (mkOps injP' wdP' injV wdV)
      = sortOps (mkOps injP wdP injV wdV))
    (hok : (price_storage_contract gp injD wdD injV wdV cap costs).fst = .ok r) :
    ∃ r', (price_storage_contract gp injD' wdD' injV wdV cap costs).fst
        = .ok r' ∧
      r'.contract_value = r.contract_value := by
  obtain ⟨injP0, wdP0, fin, hval, hsim, hord, hr⟩ := psc_ok_inv hok
  obtain ⟨hl1, hl2, hne1, hne2, hpi0, hpw0, hposI, hposW, htol⟩ :=
    validateAndParse_ok hval
  have hinj : injP0 = injP := by
    rw [hpi0] at hpi
    exact (Option.some.injEq _ _).mp hpi
  have hwd : wdP0 = wdP := by
    rw [hpw0] at hpw
    exact (Option.some.injEq _ _).mp hpw
  rw [hinj] at hr hpi0
  rw [hwd] at hr hpw0
  rw [hinj, hwd] at hsim hord
  subst hr
  have hne1' : injD' ≠ [] := by
    intro hx
    apply hne1
    have := hlenI
    rw [hx] at this
    exact List.eq_nil_of_length_eq_zero this.symm
  have hne2' : wdD' ≠ [] := by
    intro hx
    apply hne2
    have := hlenW
    rw [hx] at this
    exact List.eq_nil_of_length_eq_zero this.symm
  have hval' : validateAndParse injD' wdD' injV wdV = .ok (injP', wdP') := by
    rw [validateAndParse_eval (by omega) (by omega) hne1' hne2' hpi' hpw'
      hposI hposW]
    rw [if_neg (not_lt.mpr htol)]
  have hsim' : runSim cap 0 (sortOps (mkOps injP' wdP' injV wdV))
      = .ok fin := by
    rw [hsort]
    exact hsim
  have hord' : ¬ dateLt (maxD wdP') (minD injP') := by
    rw [hmin, hmax]
    exact hord
  refine ⟨mkResult gp injD' wdD' injV wdV injP' wdP' costs, ?_, ?_⟩
  · unfold price_storage_contract
    simp only [hval', hsim']
    rw [if_neg hord']
  · show ((mkDetails gp wdD' wdP' wdV).map (·.amount)).sum
        - ((mkDetails gp injD' injP' injV).map (·.amount)).sum
        - (injV.map (fun v => v / 1000000 * costs.injection_cost)).sum
        - (wdV.map (fun v => v / 1000000 * costs.withdrawal_cost)).sum
        - ((injD'.length : ℚ) * costs.transport_cost_per_trip
          + (wdD'.length : ℚ) * costs.transport_cost_per_trip)
        - (((if monthsDiff (minD injP') (maxD wdP') = 0 then 1
            else monthsDiff (minD injP') (maxD wdP')) : ℤ) : ℚ)
          * costs.monthly_storage_fee
      = ((mkDetails gp wdD wdP wdV).map (·.amount)).sum
        - ((mkDetails gp injD injP injV).map (·.amount)).sum
        - (injV.map (fun v => v / 1000000 * costs.injection_cost)).sum
        - (wdV.map (fun v => v / 1000000 * costs.withdrawal_cost)).sum
        - ((injD.length : ℚ) * costs.transport_cost_per_trip
          + (wdD.length : ℚ) * costs.transport_cost_per_trip)
        - (((if monthsDiff (minD injP) (maxD wdP) = 0 then 1
            else monthsDiff (minD injP) (maxD wdP)) : ℤ) : ℚ)
          * costs.monthly_storage_fee
    rw [mkDetails_amounts gp wdD' wdP' wdV (parseAll_length hpw').symm
        (by rw [parseAll_length hpw']; omega),
      mkDetails_amounts gp injD' injP' injV (parseAll_length hpi').symm
        (by rw [parseAll_length hpi']; omega),
      mkDetails_amounts gp wdD wdP wdV (parseAll_length hpw0).symm
        (by rw [parseAll_length hpw0]; omega),
      mkDetails_amounts gp injD injP injV (parseAll_length hpi0).symm
        (by rw [parseAll_length hpi0]; omega),
      hsumI, hsumW, hmin, hmax, hlenI, hlenW]

theorem zipSum_swap (gp : Date → ℚ) (pa pb pc : List Date)
    (va vb vc : List ℚ) (q1 q2 : Date) (v : ℚ)
    (h1 : pa.length = va.length) (h2 : pb.length = vb.length) :
    (((pa ++ q2 :: pb ++ q1 :: pc).zip (va ++ v :: vb ++ v :: vc)).map
      (fun p => p.2 * gp p.1)).sum
      = (((pa ++ q1 :: pb ++ q2 :: pc).zip (va ++ v :: vb ++ v :: vc)).map
        (fun p => p.2 * gp p.1)).sum := by
  have hlen1 : (pa ++ q2 :: pb).length = (va ++ v :: vb).length := by
    simp [h1, h2]
  have hlen2 : (pa ++ q1 :: pb).length = (va ++ v :: vb).length := by
    simp [h1, h2]
  rw [List.zip_append hlen1, List.zip_append hlen2, List.zip_append h1,
    List.zip_append h1, List.zip_cons_cons, List.zip_cons_cons,
    List.zip_cons_cons, List.zip_cons_cons]
  simp only [List.map_append, List.map_cons, List.sum_append, List.sum_cons]
  ring

/-- C9.  Swapping two same-volume legs of an accepted contract — two
injection legs or two withdrawal legs carrying the same volume `v`, with
the date lists decomposed around the two swapped positions — leaves the
call accepted with the same `contract_value`, provided the swap does not
change the date-sorted merged operation schedule (the stable-sort
tie-break is hypothesised unchanged). -/
theorem swap_same_volume_pairs_value_invariant :
    (∀ (gp : Date → ℚ) (cap : ℚ) (costs : StorageCosts)
      (da db dc : List String) (d1 d2 : String) (va vb vc : List ℚ) (v : ℚ)
      (wdD : List String) (wdV : List ℚ)
      (pa pb pc : List Date) (q1 q2 : Date) (wdP : List Date)
      (r : ContractResult),
      va.length = da.length → vb.length = db.length →
      parseAll da = some pa → parseDate d1 = some q1 →
      parseAll db = some pb → parseDate d2 = some q2 →
      parseAll dc = some pc → parseAll wdD = some wdP →
      sortOps (mkOps (pa ++ q2 :: pb ++ q1 :: pc) wdP
          (va ++ v :: vb ++ v :: vc) wdV)
        = sortOps (mkOps (pa ++ q1 :: pb ++ q2 :: pc) wdP
          (va ++ v :: vb ++ v :: vc) wdV) →
      (price_storage_contract gp (da ++ d1 :: db ++ d2 :: dc) wdD
          (va ++ v :: vb ++ v :: vc) wdV cap costs).fst = .ok r →
      ∃ r', (price_storage_contract gp (da ++ d2 :: db ++ d1 :: dc) wdD
          (va ++ v :: vb ++ v :: vc) wdV cap costs).fst = .ok r' ∧
        r'.contract_value = r.contract_value) ∧
    (∀ (gp : Date → ℚ) (cap : ℚ) (costs : StorageCosts)
      (injD : List String) (injV : List ℚ)
      (wa wb wc : List String) (e1 e2 : String) (ua ub uc : List ℚ) (v : ℚ)
      (injP : List Date) (ra rb rc : List Date) (s1 s2 : Date)
      (r : ContractResult),
      ua.length = wa.length → ub.length = wb.length →
      parseAll injD = some injP →
      parseAll wa = some ra → parseDate e1 = some s1 →
      parseAll wb = some rb → parseDate e2 = some s2 →
      parseAll wc = some rc →
      sortOps (mkOps injP (ra ++ s2 :: rb ++ s1 :: rc) injV
          (ua ++ v :: ub ++ v :: uc))
        = sortOps (mkOps injP (ra ++ s1 :: rb ++ s2 :: rc) injV
          (ua ++ v :: ub ++ v :: uc)) →
      (price_storage_contract gp injD (wa ++ e1 :: wb ++ e2 :: wc) injV
          (ua ++ v :: ub ++ v :: uc) cap costs).fst = .ok r →
      ∃ r', (price_storage_contract gp injD (wa ++ e2 :: wb ++ e1 :: wc) injV
          (ua ++ v :: ub ++ v :: uc) cap costs).fst = .ok r' ∧
        r'.contract_value = r.contract_value) := by
  constructor
  · intro gp cap costs da db dc d1 d2 va vb vc v wdD wdV pa pb pc q1 q2 wdP r
      hla hlb hpa hq1 hpb hq2 hpc hpw hsort hok
    have hpi : parseAll (da ++ d1 :: db ++ d2 :: dc)
        = some (pa ++ q1 :: pb ++ q2 :: pc) :=
      parseAll_append_of (parseAll_append_of hpa (parseAll_cons_of hq1 hpb))
        (parseAll_cons_of hq2 hpc)
    have hpi' : parseAll (da ++ d2 :: db ++ d1 :: dc)
        = some (pa ++ q2 :: pb ++ q1 :: pc) :=
      parseAll_append_of (parseAll_append_of hpa (parseAll_cons_of hq2 hpb))
        (parseAll_cons_of hq1 hpc)
    have hpalen : pa.length = va.length := by
      have := parseAll_length hpa
      omega
    have hpblen : pb.length = vb.length := by
      have := parseAll_length hpb
      omega
    exact psc_value_congr gp (da ++ d1 :: db ++ d2 :: dc)
      (da ++ d2 :: db ++ d1 :: dc) wdD wdD
      (va ++ v :: vb ++ v :: vc) wdV cap costs
      (pa ++ q1 :: pb ++ q2 :: pc) (pa ++ q2 :: pb ++ q1 :: pc) wdP wdP r
      hpi hpi' hpw hpw (by simp) rfl
      ((minD_swap pa pb pc q1 q2).symm) rfl
      (zipSum_swap gp pa pb pc va vb vc q1 q2 v hpalen hpblen) rfl
      hsort hok
  · intro gp cap costs injD injV wa wb wc e1 e2 ua ub uc v injP ra rb rc s1 s2
      r hua hub hpinj hra hs1 hrb hs2 hrc hsort hok
    have hpw : parseAll (wa ++ e1 :: wb ++ e2 :: wc)
        = some (ra ++ s1 :: rb ++ s2 :: rc) :=
      parseAll_append_of (parseAll_append_of hra (parseAll_cons_of hs1 hrb))
        (parseAll_cons_of hs2 hrc)
    have hpw' : parseAll (wa ++ e2 :: wb ++ e1 :: wc)
        = some (ra ++ s2 :: rb ++ s1 :: rc) :=
      parseAll_append_of (parseAll_append_of hra (parseAll_cons_of hs2 hrb))
        (parseAll_cons_of hs1 hrc)
    have hralen : ra.length = ua.length := by
      have := parseAll_length hra
      omega
    have hrblen : rb.length = ub.length := by
      have := parseAll_length hrb
      omega
    exact psc_value_congr gp injD injD (wa ++ e1 :: wb ++ e2 :: wc)
      (wa ++ e2 :: wb ++ e1 :: wc) injV
      (ua ++ v :: ub ++ v :: uc) cap costs
      injP injP (ra ++ s1 :: rb ++ s2 :: rc) (ra ++ s2 :: rb ++ s1 :: rc) r
      hpinj hpinj hpw hpw' rfl (by simp)
      rfl ((maxD_swap ra rb rc s1 s2).symm)
      rfl (zipSum_swap gp ra rb rc ua ub uc s1 s2 v hralen hrblen)
      hsort hok

/-- Witness for C9: swapping the two (volume-5) injection legs of a
concrete accepted contract, and likewise its two withdrawal legs, keeps
the contract accepted with the same value. -/
theorem swap_same_volume_pairs_value_invariant_witness :
    ∃ r r1 r2 : ContractResult,
      (price_storage_contract (fun _ => 1) ["2024-06-01", "2024-07-01"]
          ["2024-08-01", "2024-09-01"] [(5 : ℚ), 5] [(5 : ℚ), 5] 100
          defaultStorageCosts).fst = .ok r ∧
      (price_storage_contract (fun _ => 1) ["2024-07-01", "2024-06-01"]
          ["2024-08-01", "2024-09-01"] [(5 : ℚ), 5] [(5 : ℚ), 5] 100
          defaultStorageCosts).fst = .ok r1 ∧
      r1.contract_value = r.contract_value ∧
      (price_storage_contract (fun _ => 1) ["2024-06-01", "2024-07-01"]
          ["2024-09-01", "2024-08-01"] [(5 : ℚ), 5] [(5 : ℚ), 5] 100
          defaultStorageCosts).fst = .ok r2 ∧
      r2.contract_value = r.contract_value := by
  have hpi : parseAll ["2024-06-01", "2024-07-01"]
      = some [⟨2024, 6, 1⟩, ⟨2024, 7, 1⟩] := by decide
  have hpw : parseAll ["2024-08-01", "2024-09-01"]
      = some [⟨2024, 8, 1⟩, ⟨2024, 9, 1⟩] := by decide
  have hval : validateAndParse ["2024-06-01", "2024-07-01"]
      ["2024-08-01", "2024-09-01"] [(5 : ℚ), 5] [(5 : ℚ), 5]
      = .ok ([⟨2024, 6, 1⟩, ⟨2024, 7, 1⟩], [⟨2024, 8, 1⟩, ⟨2024, 9, 1⟩]) := by
    simp only [validateAndParse, hpi, hpw]
    norm_num [ratAbs]
  have hsim : runSim 100 0 (sortOps (mkOps [⟨2024, 6, 1⟩, ⟨2024, 7, 1⟩]
      [⟨2024, 8, 1⟩, ⟨2024, 9, 1⟩] [(5 : ℚ), 5] [(5 : ℚ), 5])) = .ok 0 := by
    with_unfolding_all decide
  have hok : (price_storage_contract (fun _ => 1) ["2024-06-01", "2024-07-01"]
      ["2024-08-01", "2024-09-01"] [(5 : ℚ), 5] [(5 : ℚ), 5] 100
      defaultStorageCosts).fst
      = .ok (mkResult (fun _ => 1) ["2024-06-01", "2024-07-01"]
          ["2024-08-01", "2024-09-01"] [(5 : ℚ), 5] [(5 : ℚ), 5]
          [⟨2024, 6, 1⟩, ⟨2024, 7, 1⟩] [⟨2024, 8, 1⟩, ⟨2024, 9, 1⟩]
          defaultStorageCosts) := by
    simp only [price_storage_contract, hval, hsim]
    rw [if_neg (by norm_num [maxD, minD, dateLt, dminStep, dmaxStep])]
  obtain ⟨r1, hr1, hv1⟩ := swap_same_volume_pairs_value_invariant.1
    (fun _ => 1) 100 defaultStorageCosts [] [] [] "2024-06-01" "2024-07-01"
    [] [] [] 5 ["2024-08-01", "2024-09-01"] [(5 : ℚ), 5]
    [] [] [] ⟨2024, 6, 1⟩ ⟨2024, 7, 1⟩ [⟨2024, 8, 1⟩, ⟨2024, 9, 1⟩] _
    rfl rfl (by decide) (by decide) (by decide) (by decide) (by decide)
    (by decide) (by simp [mkOps, sortOps, insertOp, dateLe]) hok
  obtain ⟨r2, hr2, hv2⟩ := swap_same_volume_pairs_value_invariant.2
    (fun _ => 1) 100 defaultStorageCosts ["2024-06-01", "2024-07-01"]
    [(5 : ℚ), 5] [] [] [] "2024-08-01" "2024-09-01" [] [] [] 5
    [⟨2024, 6, 1⟩, ⟨2024, 7, 1⟩] [] [] [] ⟨2024, 8, 1⟩ ⟨2024, 9, 1⟩ _
    rfl rfl (by decide) (by decide) (by decide) (by decide) (by decide)
    (by decide) (by simp [mkOps, sortOps, insertOp, dateLe]) hok
  exact ⟨_, r1, r2, hok, hr1, hv1, hr2, hv2⟩
